import Mathlib

/-!
Verification development for the `ekb_project` educational cryptanalysis lab.

The repository's numeric core (Fermat factorization, RSA key synthesis,
elliptic-curve point-order discovery and discrete-log solving) is shallowly
embedded below.  Conventions used throughout:

* Python integers become `Nat` (all values handled by the core are
  nonnegative); Python's `%` / `//` on nonnegative operands coincide with
  `Nat.mod` / `Nat.div`.
* Wall-clock timing (`time.time()` deltas) is not modelled: the `elapsed`
  component of the Python return tuples is dropped, every other component is
  kept in order.  Human-readable message strings are presentation only and
  are likewise dropped from the embedded report record.
* A Python `raise` becomes an `Except Err` error value; a Python `return`
  becomes `Except.ok`.
* Unbounded `while True` loops driven by fresh randomness are modelled with
  an explicit fuel parameter (structural recursion); running out of fuel
  yields `none` (the computation is still searching), which is distinct
  from every behaviour the Python code can exhibit on termination.
* The operating-system randomness source (`secrets`) is modelled as an
  ambient stream `rand : Nat → Nat` together with the index of the next
  unused draw; `secrets.randbits k` at position `i` is `rand i % 2 ^ k`
  and `secrets.randbelow m` at position `i` is `rand i % m`.
* The elliptic-curve point type is the external `ecdsa` collaborator.  Per
  the design contract (spec §4.5) it is an exact group: points are a value
  type with structural equality, `INFINITY` is the identity, point addition
  and scalar multiplication satisfy the group laws exactly.  It is
  therefore embedded as an arbitrary `AddCommGroup` with decidable
  equality, `0` playing the role of `ellipticcurve.INFINITY`, `P + G` the
  library's point addition, `P - G` its subtraction and `k • G` the
  library's `k * G`.
-/

/-- Error taxonomy of the lab: each constructor corresponds to one `raise`
site in the source (`SafetyError`, `ValueError`, `RuntimeError`,
`AssertionError`). -/
inductive Err where
  | fieldTooLarge   -- SafetyError / ValueError: bit length over the safety ceiling
  | boundTooLarge   -- SafetyError: BSGS order_bound > 200000
  | noCandidate     -- RuntimeError: weak RSA delta scan exhausted
  | budgetExhausted -- RuntimeError: strong RSA max_tries exhausted
  | assertFailed    -- AssertionError: bits outside the allowed range
  | valueError      -- ValueError: malformed parameter
  | invError        -- ValueError: modular inverse does not exist
  deriving DecidableEq, Repr

instance {ε α : Type} [DecidableEq ε] [DecidableEq α] : DecidableEq (Except ε α) :=
  fun a b =>
    match a, b with
    | .error e1, .error e2 =>
      if h : e1 = e2 then isTrue (by rw [h])
      else isFalse (by intro hc; cases hc; exact h rfl)
    | .error _, .ok _ => isFalse (by intro h; cases h)
    | .ok _, .error _ => isFalse (by intro h; cases h)
    | .ok v1, .ok v2 =>
      if h : v1 = v2 then isTrue (by rw [h])
      else isFalse (by intro hc; cases hc; exact h rfl)

/-- Fuel-driven halving loop computing the binary length of `n`; the fuel is
only a termination device, `bitLenGo f n` is the bit length whenever
`n ≤ f`. -/
def bitLenGo : Nat → Nat → Nat
  | 0, _ => 0
  | f + 1, n => if n = 0 then 0 else bitLenGo f (n / 2) + 1

/-- Python `int.bit_length` for nonnegative integers. -/
def bitLength (n : Nat) : Nat := bitLenGo n n

/-- Fuel-driven descending search for the integer square root; `isqrtLin n f`
is the largest `r ≤ f` with `r * r ≤ n`. -/
def isqrtLin (n : Nat) : Nat → Nat
  | 0 => 0
  | r + 1 => if (r + 1) * (r + 1) ≤ n then r + 1 else isqrtLin n r

/-- Python `math.isqrt`: the floor of the square root. -/
def isqrt (n : Nat) : Nat := isqrtLin n n

/-- Python `int(math.ceil(math.sqrt n))` as computed by `bsgs_dlog`.  On the range
admitted by the BSGS safety ceiling (`n ≤ 200000`) the IEEE-754 double
computation is exact, so this is the exact integer ceiling of the square
root. -/
def ceilSqrt (n : Nat) : Nat :=
  let r := isqrt n
  if r * r = n then r else r + 1

/-! ### `src/lab/rsa/fermat_factor.py` -/

/-- Python `is_square` from `fermat_factor.py`. -/
def is_square (n : Nat) : Bool := isqrt n * isqrt n == n

/-- One candidate test of the Fermat search at position `a`: the condition
under which the `while` body of `fermat_factor` returns.  (`b2 ≥ 0` always
holds because the loop starts at `a = ceil(sqrt n)`.) -/
def fermatHit (n a : Nat) : Bool :=
  let b2 := a * a - n
  is_square b2 && (a - isqrt b2) * (a + isqrt b2) == n

/-- The starting point `a = ceil(sqrt n)` of `fermat_factor`'s search. -/
def fermatStart (n : Nat) : Nat :=
  let a := isqrt n
  if a * a < n then a + 1 else a

/-- The `while steps < max_steps` loop of `fermat_factor`; `remaining` is
`max_steps - steps`.  Returns `(p, q, steps)` on success and `none` (the
bare Python `None`, carrying no diagnostics) on exhaustion. -/
def fermatGo (n : Nat) : Nat → Nat → Nat → Option (Nat × Nat × Nat)
  | _, _, 0 => none
  | a, steps, rem + 1 =>
    let b2 := a * a - n
    if is_square b2 then
      let b := isqrt b2
      let p := a - b
      let q := a + b
      if p * q = n then some (p, q, steps)
      else fermatGo n (a + 1) (steps + 1) rem
    else fermatGo n (a + 1) (steps + 1) rem

/-- Python `fermat_factor(n, max_steps)`.  Refuses `n` of bit length over 64 with a
`ValueError` before the search loop; otherwise runs the Fermat search.  The
`elapsed` component of the Python success tuple is dropped. -/
def fermat_factor (n maxSteps : Nat) : Except Err (Option (Nat × Nat × Nat)) :=
  if bitLength n > 64 then .error .fieldTooLarge
  else .ok (fermatGo n (fermatStart n) 0 maxSteps)

/-! ### `src/lab/ecc/make_ecc_pem.py` -/

/-- A short-Weierstrass prime-field curve `y² = x³ + ax + b (mod p)`
(`ecdsa.ellipticcurve.CurveFp`); the attack code reads only `p`. -/
structure Curve where
  p : Nat
  a : Nat
  b : Nat
  deriving DecidableEq, Repr

/-- Python `_check_field_size(curve, max_bits=64)`. -/
def check_field_size (c : Curve) : Except Err Unit :=
  if bitLength c.p > 64 then .error .fieldTooLarge else .ok ()

variable {Pt : Type} [AddCommGroup Pt] [DecidableEq Pt]

/-- The repeated-addition loop of `find_point_order`: `R` is the running
multiple, `steps` the 1-based step counter, `remaining` is
`max_search - steps + 1`.  Returns `(order?, steps-as-reported)`. -/
def findOrderGo (P : Pt) : Pt → Nat → Nat → Option Nat × Nat
  | _, steps, 0 => (none, steps - 1)
  | R, steps, rem + 1 =>
    if R = 0 then (some steps, steps)
    else findOrderGo P (R + P) (steps + 1) rem

/-- Python `find_point_order(curve, P, max_search)`; result `(order?, steps)`, the
elapsed-seconds component being dropped. -/
def find_point_order (c : Curve) (P : Pt) (maxSearch : Nat) :
    Except Err (Option Nat × Nat) :=
  match check_field_size c with
  | .error e => .error e
  | .ok _ =>
    if P = 0 then .ok (some 1, 0)
    else .ok (findOrderGo P P 1 maxSearch)

/-- The `for k in range(0, order_bound)` loop of `brute_force_dlog` together
with its final post-loop check; `remaining` is `order_bound - k`.  At the
base case `k = order_bound` and the final `if R == Q` check runs. -/
def bruteGo (G Q : Pt) : Pt → Nat → Nat → Nat → Option Nat × Nat
  | R, k, steps, 0 => if R = Q then (some k, steps) else (none, steps)
  | R, k, steps, rem + 1 =>
    if R = Q then (some k, steps)
    else bruteGo G Q (R + G) (k + 1) (steps + 1) rem

/-- Python `brute_force_dlog(curve, G, Q, order_bound)`; result `(k?, steps)`. -/
def brute_force_dlog (c : Curve) (G Q : Pt) (bound : Nat) :
    Except Err (Option Nat × Nat) :=
  match check_field_size c with
  | .error e => .error e
  | .ok _ => .ok (bruteGo G Q 0 0 0 bound)

/-- A Python `dict` keyed by points: an insertion-ordered association list
where inserting an existing key overwrites its value in place.  The key
`None` used by the source for `INFINITY` is represented by the identity
point itself — `ecdsa` point equality is structural on the coordinate pair,
so key equality coincides with point equality. -/
def dictInsert (t : List (Pt × Nat)) (key : Pt) (v : Nat) : List (Pt × Nat) :=
  if t.any (fun e => e.1 = key) then
    t.map (fun e => if e.1 = key then (key, v) else e)
  else t ++ [(key, v)]

/-- Lookup in the association list: `key in table` / `table[key]`. -/
def dictGet? (t : List (Pt × Nat)) (key : Pt) : Option Nat :=
  (t.find? (fun e => e.1 = key)).map (·.2)

/-- The baby-step phase of `bsgs_dlog`: `for j in range(m): table[R] = j;
R += G`, starting from `R = INFINITY`. -/
def babyGo (G : Pt) : Pt → Nat → Nat → List (Pt × Nat) → List (Pt × Nat)
  | _, _, 0, t => t
  | R, j, rem + 1, t => babyGo G (R + G) (j + 1) rem (dictInsert t R j)

/-- The baby-step table for `j·G`, `j ∈ [0, m-1]`. -/
def babyTable (G : Pt) (m : Nat) : List (Pt × Nat) := babyGo G 0 0 m []

/-- The giant-step phase of `bsgs_dlog`: `for i in range(m+1)`, checking `S`
against the table and stepping `S -= factor`; `remaining` is `m + 1 - i`,
and `steps` mirrors the separate step counter of the source (it equals `i`
throughout).  Returns `(k?, steps-as-reported)`. -/
def giantGo (t : List (Pt × Nat)) (m : Nat) (factor : Pt) :
    Pt → Nat → Nat → Nat → Option Nat × Nat
  | _, _, steps, 0 => (none, steps)
  | S, i, steps, rem + 1 =>
    match dictGet? t S with
    | some j => (some (i * m + j), steps + i)
    | none => giantGo t m factor (S - factor) (i + 1) (steps + 1) rem

/-- Result record of `bsgs_dlog`: the Python tuple
`(k, memory, steps, elapsed)` minus the elapsed seconds. -/
structure BsgsOut where
  k : Option Nat
  memory : Nat
  steps : Nat
  deriving DecidableEq, Repr

/-- Python `bsgs_dlog(curve, G, Q, order_bound)`.  Checks the field-size ceiling,
then refuses `order_bound > 200000`, then runs the two phases with
`m = ceil(sqrt(order_bound))` and `factor = m·G`. -/
def bsgs_dlog (c : Curve) (G Q : Pt) (bound : Nat) : Except Err BsgsOut :=
  match check_field_size c with
  | .error e => .error e
  | .ok _ =>
    if bound > 200000 then .error .boundTooLarge
    else
      let m := ceilSqrt bound
      let t := babyTable G m
      let factor := m • G
      let r := giantGo t m factor Q 0 0 (m + 1)
      .ok ⟨r.1, t.length, r.2⟩

/-- The report built by `analyze_point` (message strings dropped):
the order-search outcome, and the brute-force / BSGS outcomes when those
stages ran. -/
structure Report where
  order_search : Option Nat × Nat
  bruteforce : Option (Option Nat × Nat)
  bsgs : Option BsgsOut
  deriving DecidableEq, Repr

/-- Python `analyze_point(curve, G, Q, order_search, dlog_bound)`: order finding,
then brute force mod `r` when `r ≤ 100000` (returning early on success),
then BSGS when `dlog_bound ≤ 200000`. -/
def analyze_point (c : Curve) (G Q : Pt) (orderSearch dlogBound : Nat) :
    Except Err Report :=
  match check_field_size c with
  | .error e => .error e
  | .ok _ =>
    match find_point_order c G orderSearch with
    | .error e => .error e
    | .ok (r, stepsOrder) =>
      match r with
      | some rv =>
        if rv ≤ 100000 then
          match brute_force_dlog c G Q rv with
          | .error e => .error e
          | .ok (k, stepsBf) =>
            match k with
            | some kv =>
              .ok ⟨(r, stepsOrder), some (some kv, stepsBf), none⟩
            | none =>
              if dlogBound ≤ 200000 then
                match bsgs_dlog c G Q dlogBound with
                | .error e => .error e
                | .ok out => .ok ⟨(r, stepsOrder), some (none, stepsBf), some out⟩
              else .ok ⟨(r, stepsOrder), some (none, stepsBf), none⟩
        else
          if dlogBound ≤ 200000 then
            match bsgs_dlog c G Q dlogBound with
            | .error e => .error e
            | .ok out => .ok ⟨(r, stepsOrder), none, some out⟩
          else .ok ⟨(r, stepsOrder), none, none⟩
      | none =>
        if dlogBound ≤ 200000 then
          match bsgs_dlog c G Q dlogBound with
          | .error e => .error e
          | .ok out => .ok ⟨(r, stepsOrder), none, some out⟩
        else .ok ⟨(r, stepsOrder), none, none⟩

/-! ### `src/lab/rsa/weak_rsa_gen.py` -/

/-- The RSA key dict `{'p','q','n','e','d'}` returned by `gen_weak_rsa` and
by `weak_rsa_gen.gen_strong_rsa`. -/
structure RSAKey where
  p : Nat
  q : Nat
  n : Nat
  e : Nat
  d : Nat
  deriving DecidableEq, Repr

/-- The recursive extended Euclid `egcd` nested inside `gen_weak_rsa` (and
the fallback of `_inv_mod`): `egcd a b = (x, y, g)` with
`x*a + y*b = g = gcd a b`.  The fuel argument only drives termination; the
recursion stops as soon as `b = 0`, and `fuel ≥ b` always suffices. -/
def egcdGo : Nat → Nat → Nat → Int × Int × Int
  | 0, a, _ => (1, 0, (a : Int))
  | f + 1, a, b =>
    if b = 0 then (1, 0, (a : Int))
    else
      let r := egcdGo f b (a % b)
      (r.2.1, r.1 - ((a / b : Nat) : Int) * r.2.1, r.2.2)

/-- Python `egcd(a, b)` on nonnegative arguments. -/
def egcd (a b : Nat) : Int × Int × Int := egcdGo b a b

/-- Python `_inv_mod(a, m)` from `weak_rsa_gen.py` / `strong_rsa_gen.py`: the
modular inverse in `[0, m)`.  Both the `pow(a, -1, m)` fast path and the
EGCD fallback produce the unique inverse, raising `ValueError` when
`gcd a m ≠ 1`. -/
def inv_mod (a m : Nat) : Except Err Nat :=
  if Nat.gcd a m = 1 then .ok (((egcd a m).1 % (m : Int)).toNat)
  else .error .invError

/-- The `while True` candidate loop of `gen_prime(bits)`: each draw is
`secrets.randbits(bits) | 1` (odd, but with no top-bit forcing), accepted on
the Fermat test `pow(2, p-1, p) == 1`. -/
def genPrimeGo (rand : Nat → Nat) (bits : Nat) : Nat → Nat → Option (Nat × Nat)
  | 0, _ => none
  | fuel + 1, idx =>
    let p := (rand idx % 2 ^ bits) ||| 1
    if 2 ^ (p - 1) % p = 1 then some (p, idx + 1)
    else genPrimeGo rand bits fuel (idx + 1)

/-- Python `gen_prime(bits)`; `assert bits >= 8` first.  The result pairs the prime
with the next unused random-stream index. -/
def gen_prime (rand : Nat → Nat) (bits fuel idx : Nat) :
    Except Err (Option (Nat × Nat)) :=
  if bits < 8 then .error .assertFailed
  else .ok (genPrimeGo rand bits fuel idx)

/-- The `for delta in range(1, closeness+1)` scan of `gen_weak_rsa`:
`q = p + delta` is accepted when it passes the Fermat test, `gcd(p,q) = 1`
and `gcd(e, phi) = 1`; the scan continues otherwise and raises
`RuntimeError` when the range is exhausted. -/
def weakScan (p : Nat) : Nat → Nat → Except Err RSAKey
  | 0, _ => .error .noCandidate
  | rem + 1, delta =>
    let q := p + delta
    if 2 ^ (q - 1) % q = 1 ∧ Nat.gcd p q = 1 then
      let n := p * q
      let phi := (p - 1) * (q - 1)
      let e := 65537
      if Nat.gcd e phi = 1 then
        .ok ⟨p, q, n, e, ((egcd e phi).1 % (phi : Int)).toNat⟩
      else weakScan p rem (delta + 1)
    else weakScan p rem (delta + 1)

/-- Python `gen_weak_rsa(bits, closeness)`: generate `p`, then scan
`q = p + delta` for `delta ∈ [1, closeness]`. -/
def gen_weak_rsa (rand : Nat → Nat) (bits closeness fuel idx : Nat) :
    Option (Except Err RSAKey) :=
  match gen_prime rand bits fuel idx with
  | .error e => some (.error e)
  | .ok none => none
  | .ok (some (p, _)) => some (weakScan p closeness 1)

/-- The small-prime loop of `_is_probable_prime_64`. -/
def trialSmall (n : Nat) : List Nat → Option Bool
  | [] => none
  | p :: ps =>
    if n = p then some true
    else if n % p = 0 then some false
    else trialSmall n ps

/-- The `while d % 2 == 0` decomposition `n - 1 = d * 2^s`; fuel-driven, the
callers always pass `d ≥ 1` so the loop terminates within `d` halvings. -/
def split2 : Nat → Nat → Nat → Nat × Nat
  | 0, d, s => (d, s)
  | f + 1, d, s => if d % 2 = 0 ∧ d ≠ 0 then split2 f (d / 2) (s + 1) else (d, s)

/-- The `for _ in range(s-1)` squaring loop of a Miller-Rabin witness:
returns `true` when `n - 1` is reached (the Python `break`), `false` when
the loop completes (the `for`-`else` declares `n` composite). -/
def mrSquareLoop (n : Nat) : Nat → Nat → Bool
  | _, 0 => false
  | x, c + 1 =>
    let x' := x * x % n
    if x' = n - 1 then true else mrSquareLoop n x' c

/-- One deterministic Miller-Rabin witness `a` for `_is_probable_prime_64`:
`true` means "continue with the next witness". -/
def mrWitness (n d s a : Nat) : Bool :=
  if a % n = 0 then true
  else
    let x := a ^ d % n
    if x = 1 ∨ x = n - 1 then true
    else mrSquareLoop n x (s - 1)

/-- The witness loop of `_is_probable_prime_64` over the fixed bases. -/
def mrWitnesses (n d s : Nat) : List Nat → Bool
  | [] => true
  | a :: as => if mrWitness n d s a then mrWitnesses n d s as else false

/-- Python `_is_probable_prime_64(n)`: deterministic Miller-Rabin, valid below
`2^64` with the fixed witness set `{2,3,5,7,11,13,17}`. -/
def is_probable_prime_64 (n : Nat) : Bool :=
  if n < 2 then false
  else
    match trialSmall n [2, 3, 5, 7, 11, 13, 17, 19, 23, 29] with
    | some b => b
    | none =>
      let ds := split2 (n - 1) (n - 1) 0
      mrWitnesses n ds.1 ds.2 [2, 3, 5, 7, 11, 13, 17]

/-- Python `_rand_odd_with_bits(bits)` at stream position `idx`: a random
`bits`-bit draw with the top bit forced and made odd. -/
def rand_odd_with_bits (rand : Nat → Nat) (bits idx : Nat) : Nat :=
  ((rand idx % 2 ^ bits) ||| 2 ^ (bits - 1)) ||| 1

/-- The `while True` loop of `gen_prime_mr(bits)`. -/
def genPrimeMrGo (rand : Nat → Nat) (bits : Nat) : Nat → Nat → Option (Nat × Nat)
  | 0, _ => none
  | fuel + 1, idx =>
    let cand := rand_odd_with_bits rand bits idx
    if is_probable_prime_64 cand then some (cand, idx + 1)
    else genPrimeMrGo rand bits fuel (idx + 1)

/-- Python `gen_prime_mr(bits)`; `assert 8 <= bits <= 64` first. -/
def gen_prime_mr (rand : Nat → Nat) (bits fuel idx : Nat) :
    Except Err (Option (Nat × Nat)) :=
  if 8 ≤ bits ∧ bits ≤ 64 then .ok (genPrimeMrGo rand bits fuel idx)
  else .error .assertFailed

namespace WeakRsaGen

/-- The `while tries < max_tries` loop of `weak_rsa_gen.gen_strong_rsa`;
`remaining = max_tries - tries`, so the base case is the post-loop
`RuntimeError` (budget exhausted).  `pf` is the fuel given to each inner
`gen_prime_mr` call. -/
def genStrongGo (rand : Nat → Nat) (bits minGap e pf : Nat) :
    Nat → Nat → Option (Except Err RSAKey)
  | 0, _ => some (.error .budgetExhausted)
  | rem + 1, idx =>
    match genPrimeMrGo rand bits pf idx with
    | none => none
    | some (p, i1) =>
      match genPrimeMrGo rand bits pf i1 with
      | none => none
      | some (q, i2) =>
        if p = q then genStrongGo rand bits minGap e pf rem i2
        else if ((p : Int) - (q : Int)).natAbs < minGap then
          genStrongGo rand bits minGap e pf rem i2
        else
          let phi := (p - 1) * (q - 1)
          let n := p * q
          if Nat.gcd e (p - 1) ≠ 1 ∨ Nat.gcd e (q - 1) ≠ 1 ∨ Nat.gcd e phi ≠ 1 then
            genStrongGo rand bits minGap e pf rem i2
          else
            match inv_mod e phi with
            | .error er => some (.error er)
            | .ok d => some (.ok ⟨p, q, n, e, d⟩)

/-- Python `weak_rsa_gen.gen_strong_rsa(bits, min_gap, e, max_tries)`: asserts
`8 <= bits <= 64`, requires `min_gap >= 1`, then retries up to
`max_tries`. -/
def gen_strong_rsa (rand : Nat → Nat) (bits minGap e maxTries pf idx : Nat) :
    Option (Except Err RSAKey) :=
  if ¬(8 ≤ bits ∧ bits ≤ 64) then some (.error .assertFailed)
  else if minGap < 1 then some (.error .valueError)
  else genStrongGo rand bits minGap e pf maxTries idx

end WeakRsaGen

/-! ### `src/lab/rsa/strong_rsa_gen.py` -/

namespace StrongRsaGen

/-- Python `_SMALL_PRIMES` from `strong_rsa_gen.py`. -/
def SMALL_PRIMES : List Nat :=
  [3, 5, 7, 11, 13, 17, 19, 23, 29, 31, 37, 41, 43, 47,
   53, 59, 61, 67, 71, 73, 79, 83, 89, 97, 101, 103, 107, 109, 113]

/-- The loop of `_trial_division(n)`. -/
def trialDivGo (n : Nat) : List Nat → Bool
  | [] => true
  | p :: ps => if n % p = 0 then n == p else trialDivGo n ps

/-- Python `_trial_division(n)`. -/
def trial_division (n : Nat) : Bool := trialDivGo n SMALL_PRIMES

/-- Python `_rand_odd_bits(bits)` at stream position `idx` (exact bit length,
odd). -/
def rand_odd_bits (rand : Nat → Nat) (bits idx : Nat) : Nat :=
  ((rand idx % 2 ^ bits) ||| 2 ^ (bits - 1)) ||| 1

/-- The `for _ in range(rounds)` loop of `_miller_rabin`: each round draws
`a = secrets.randbelow(n-3) + 2` from the stream.  Returns the verdict and
the next unused stream index. -/
def mrRounds (rand : Nat → Nat) (n d s : Nat) : Nat → Nat → Bool × Nat
  | 0, idx => (true, idx)
  | r + 1, idx =>
    let a := rand idx % (n - 3) + 2
    let x := a ^ d % n
    if x = 1 ∨ x = n - 1 then mrRounds rand n d s r (idx + 1)
    else if mrSquareLoop n x (s - 1) then mrRounds rand n d s r (idx + 1)
    else (false, idx + 1)

/-- Python `_miller_rabin(n, rounds)`: the probabilistic test of
`strong_rsa_gen.py` (random witnesses from the stream after quick
2-divisibility and small-prime checks). -/
def miller_rabin (rand : Nat → Nat) (n rounds idx : Nat) : Bool × Nat :=
  if n < 2 then (false, idx)
  else if n = 2 then (true, idx)
  else if n % 2 = 0 then (false, idx)
  else if ¬trial_division n then (false, idx)
  else
    let ds := split2 (n - 1) (n - 1) 0
    mrRounds rand n ds.1 ds.2 rounds idx

/-- The `while True` loop of `_gen_prime(bits, rounds)`. -/
def genPrimeGo (rand : Nat → Nat) (bits rounds : Nat) :
    Nat → Nat → Option (Nat × Nat)
  | 0, _ => none
  | fuel + 1, idx =>
    let cand := rand_odd_bits rand bits idx
    let v := miller_rabin rand cand rounds (idx + 1)
    if v.1 then some (cand, v.2)
    else genPrimeGo rand bits rounds fuel v.2

/-- The `while True` loop of `_gen_safe_prime(bits, rounds)`: draw a prime
`r` at `bits - 1`, form `p = 2r + 1`, recheck bit length and primality.
`pf` is the fuel of each inner `_gen_prime` call. -/
def genSafePrimeGo (rand : Nat → Nat) (bits rounds pf : Nat) :
    Nat → Nat → Option (Nat × Nat)
  | 0, _ => none
  | fuel + 1, idx =>
    match genPrimeGo rand (bits - 1) rounds pf idx with
    | none => none
    | some (r, i1) =>
      let p := 2 * r + 1
      if bitLength p ≠ bits then genSafePrimeGo rand bits rounds pf fuel i1
      else
        let v := miller_rabin rand p rounds i1
        if v.1 then some (p, v.2)
        else genSafePrimeGo rand bits rounds pf fuel v.2

/-- The full key dict of `strong_rsa_gen.gen_strong_rsa`, CRT parameters
included. -/
structure StrongKey where
  p : Nat
  q : Nat
  n : Nat
  e : Nat
  d : Nat
  phi : Nat
  dp : Nat
  dq : Nat
  qinv : Nat
  min_gap_bits_enforced : Bool
  deriving DecidableEq, Repr

/-- The `while True` retry loop of `strong_rsa_gen.gen_strong_rsa` — note
that unlike the weak-file variant it has no try cap: the only exits are a
successful pair or a hard error from `_inv_mod`. -/
def genStrongGo (rand : Nat → Nat) (half e : Nat) (strongPrime : Bool)
    (minGapBits : Option Nat) (rounds pf : Nat) :
    Nat → Nat → Option (Except Err StrongKey)
  | 0, _ => none
  | fuel + 1, idx =>
    let draw := fun (i : Nat) =>
      if strongPrime then genSafePrimeGo rand half rounds pf pf i
      else genPrimeGo rand half rounds pf i
    match draw idx with
    | none => none
    | some (p, i1) =>
      match draw i1 with
      | none => none
      | some (q, i2) =>
        if p = q then genStrongGo rand half e strongPrime minGapBits rounds pf fuel i2
        else
          let gap := ((p : Int) - (q : Int)).natAbs
          if minGapBits.isSome ∧ bitLength gap < minGapBits.getD 0 then
            genStrongGo rand half e strongPrime minGapBits rounds pf fuel i2
          else if Nat.gcd e (p - 1) ≠ 1 ∨ Nat.gcd e (q - 1) ≠ 1 then
            genStrongGo rand half e strongPrime minGapBits rounds pf fuel i2
          else
            let n := p * q
            let phi := (p - 1) * (q - 1)
            if Nat.gcd e phi ≠ 1 then
              genStrongGo rand half e strongPrime minGapBits rounds pf fuel i2
            else
              match inv_mod e phi with
              | .error er => some (.error er)
              | .ok d =>
                match inv_mod q p with
                | .error er => some (.error er)
                | .ok qinv =>
                  some (.ok ⟨p, q, n, e, d, phi, d % (p - 1), d % (q - 1),
                             qinv, minGapBits.isSome⟩)

/-- Python `strong_rsa_gen.gen_strong_rsa(modulus_bits, e, strong_prime,
min_gap_bits, mr_rounds)`: rejects odd `modulus_bits` with `ValueError`,
then loops without any try cap. -/
def gen_strong_rsa (rand : Nat → Nat) (modulusBits e : Nat)
    (strongPrime : Bool) (minGapBits : Option Nat) (rounds fuel pf idx : Nat) :
    Option (Except Err StrongKey) :=
  if modulusBits % 2 ≠ 0 then some (.error .valueError)
  else genStrongGo rand (modulusBits / 2) e strongPrime minGapBits rounds pf fuel idx

end StrongRsaGen

/-! ### Preliminary lemmas -/

lemma isqrtLin_eq (n : Nat) : ∀ f, Nat.sqrt n ≤ f → isqrtLin n f = Nat.sqrt n := by
  intro f
  induction f with
  | zero => intro h; simpa [isqrtLin] using (Nat.le_zero.mp h).symm
  | succ f ih =>
    intro h
    rw [isqrtLin]
    by_cases hle : (f + 1) * (f + 1) ≤ n
    · rw [if_pos hle]
      exact le_antisymm (Nat.le_sqrt.mpr hle) h
    · rw [if_neg hle]
      exact ih (Nat.lt_succ_iff.mp (Nat.sqrt_lt.mpr (Nat.lt_of_not_le hle)))

lemma isqrt_eq (n : Nat) : isqrt n = Nat.sqrt n :=
  isqrtLin_eq n n (Nat.sqrt_le_self n)

lemma bitLenGo_zero : ∀ f, bitLenGo f 0 = 0 := by
  intro f; cases f <;> simp [bitLenGo]

lemma bitLenGo_eq : ∀ f n k, n ≤ f → 2 ^ k ≤ n → n < 2 ^ (k + 1) →
    bitLenGo f n = k + 1 := by
  intro f
  induction f with
  | zero =>
    intro n k hf hlo _
    exact absurd (Nat.le_trans (Nat.one_le_two_pow) (hlo.trans hf)) (by simp)
  | succ f ih =>
    intro n k hf hlo hhi
    have hn : n ≠ 0 := by
      intro h; rw [h] at hlo; exact absurd hlo (by simp [Nat.pos_of_ne_zero])
    rw [bitLenGo, if_neg hn]
    cases k with
    | zero =>
      have h1 : n = 1 := by omega
      simp [h1, bitLenGo_zero]
    | succ k =>
      have hlo2 : 2 ^ k ≤ n / 2 := by
        rw [Nat.le_div_iff_mul_le (by norm_num)]
        calc 2 ^ k * 2 = 2 ^ (k + 1) := by rw [pow_succ]
        _ ≤ n := hlo
      have hhi2 : n / 2 < 2 ^ (k + 1) := by
        rw [Nat.div_lt_iff_lt_mul (by norm_num)]
        calc n < 2 ^ (k + 1 + 1) := hhi
        _ = 2 ^ (k + 1) * 2 := by rw [pow_succ]
      have hf2 : n / 2 ≤ f :=
        Nat.lt_succ_iff.mp (Nat.lt_of_lt_of_le (Nat.div_lt_self (Nat.pos_of_ne_zero hn) one_lt_two) hf)
      rw [ih (n / 2) k hf2 hlo2 hhi2]

lemma bitLength_eq (n k : Nat) (hlo : 2 ^ k ≤ n) (hhi : n < 2 ^ (k + 1)) :
    bitLength n = k + 1 :=
  bitLenGo_eq n n k le_rfl hlo hhi

lemma le_ceilSqrt_sq (n : Nat) : n ≤ ceilSqrt n * ceilSqrt n := by
  unfold ceilSqrt
  rw [isqrt_eq]
  by_cases h : Nat.sqrt n * Nat.sqrt n = n
  · simp [h]
  · rw [if_neg h]
    exact le_of_lt (Nat.lt_succ_sqrt n)

lemma ceilSqrt_pos (n : Nat) (hn : 1 ≤ n) : 1 ≤ ceilSqrt n := by
  unfold ceilSqrt
  rw [isqrt_eq]
  by_cases h : Nat.sqrt n * Nat.sqrt n = n
  · rw [if_pos h]
    rcases Nat.eq_zero_or_pos (Nat.sqrt n) with h0 | h1
    · rw [h0] at h; omega
    · exact h1
  · rw [if_neg h]; omega

/-! #### Dictionary lemmas -/

set_option linter.unusedSectionVars false

variable {Pt : Type} [AddCommGroup Pt] [DecidableEq Pt]

lemma dictInsert_cons_ne (e : Pt × Nat) (t : List (Pt × Nat)) (k : Pt) (v : Nat)
    (he : e.1 ≠ k) : dictInsert (e :: t) k v = e :: dictInsert t k v := by
  unfold dictInsert
  by_cases ht : t.any (fun x => x.1 = k)
  · simp [ht, he]
  · simp [ht, he]

lemma dictInsert_nil (k : Pt) (v : Nat) :
    dictInsert ([] : List (Pt × Nat)) k v = [(k, v)] := by
  simp [dictInsert]

lemma dictGet?_nil (k : Pt) : dictGet? ([] : List (Pt × Nat)) k = none := by
  simp [dictGet?]

lemma dictGet?_cons (e : Pt × Nat) (t : List (Pt × Nat)) (k : Pt) :
    dictGet? (e :: t) k = if e.1 = k then some e.2 else dictGet? t k := by
  by_cases he : e.1 = k
  · simp [dictGet?, List.find?_cons, he]
  · simp [dictGet?, List.find?_cons, he]

lemma dictGet?_insert_self (t : List (Pt × Nat)) (k : Pt) (v : Nat) :
    dictGet? (dictInsert t k v) k = some v := by
  induction t with
  | nil => simp [dictInsert_nil, dictGet?_cons]
  | cons e t ih =>
    by_cases he : e.1 = k
    · unfold dictInsert
      have hany : (e :: t).any (fun x => x.1 = k) = true := by simp [he]
      rw [hany]
      simp only [if_true, List.map_cons, if_pos he]
      rw [dictGet?_cons]
      simp
    · rw [dictInsert_cons_ne e t k v he, dictGet?_cons, if_neg he]
      exact ih

lemma dictGet?_map_overwrite (t : List (Pt × Nat)) (k k' : Pt) (v : Nat)
    (hne : k' ≠ k) :
    dictGet? (t.map (fun e => if e.1 = k then (k, v) else e)) k' = dictGet? t k' := by
  induction t with
  | nil => simp
  | cons e t ih =>
    by_cases he : e.1 = k
    · simp only [List.map_cons, if_pos he]
      rw [dictGet?_cons, dictGet?_cons, if_neg, if_neg]
      · exact ih
      · rw [he]; exact fun h => hne h.symm
      · exact fun h => hne h.symm
    · simp only [List.map_cons, if_neg he]
      rw [dictGet?_cons, dictGet?_cons]
      by_cases he' : e.1 = k'
      · simp [he']
      · rw [if_neg he', if_neg he']
        exact ih

lemma dictGet?_append (t₁ t₂ : List (Pt × Nat)) (k : Pt) :
    dictGet? (t₁ ++ t₂) k = (dictGet? t₁ k).or (dictGet? t₂ k) := by
  induction t₁ with
  | nil => simp [dictGet?_nil]
  | cons e t ih =>
    rw [List.cons_append, dictGet?_cons, dictGet?_cons]
    by_cases he : e.1 = k
    · simp [he]
    · simp only [if_neg he]; exact ih

lemma dictGet?_insert_ne (t : List (Pt × Nat)) (k k' : Pt) (v : Nat)
    (hne : k' ≠ k) : dictGet? (dictInsert t k v) k' = dictGet? t k' := by
  unfold dictInsert
  by_cases ht : t.any (fun e => e.1 = k)
  · rw [if_pos ht]
    exact dictGet?_map_overwrite t k k' v hne
  · rw [if_neg ht, dictGet?_append, dictGet?_cons, if_neg]
    · simp only [dictGet?_nil]
      cases dictGet? t k' <;> simp
    · exact fun h => hne h.symm

lemma dictAny_eq_isSome (t : List (Pt × Nat)) (k : Pt) :
    t.any (fun e => e.1 = k) = (dictGet? t k).isSome := by
  induction t with
  | nil => simp [dictGet?_nil]
  | cons e t ih =>
    rw [List.any_cons, dictGet?_cons]
    by_cases he : e.1 = k
    · simp [he]
    · simp only [if_neg he, he, decide_eq_false, Bool.false_or]
      exact ih

lemma length_dictInsert (t : List (Pt × Nat)) (k : Pt) (v : Nat) :
    (dictInsert t k v).length =
      if (dictGet? t k).isSome then t.length else t.length + 1 := by
  unfold dictInsert
  rw [dictAny_eq_isSome]
  by_cases h : (dictGet? t k).isSome
  · simp [h]
  · simp [h]

lemma dictGet?_insert_isSome (t : List (Pt × Nat)) (k k' : Pt) (v : Nat)
    (h : (dictGet? t k').isSome) : (dictGet? (dictInsert t k v) k').isSome := by
  by_cases he : k' = k
  · rw [he, dictGet?_insert_self]; rfl
  · rw [dictGet?_insert_ne t k k' v he]; exact h

/-! #### Baby-step table invariants -/

lemma babyGo_sound (G : Pt) : ∀ rem j t,
    (∀ P v, dictGet? t P = some v → v • G = P ∧ v < j + rem) →
    ∀ P v, dictGet? (babyGo G (j • G) j rem t) P = some v → v • G = P ∧ v < j + rem := by
  intro rem
  induction rem with
  | zero => intro j t ht P v h; exact ht P v h
  | succ rem ih =>
    intro j t ht P v h
    rw [babyGo, show (j : Nat) • G + G = (j + 1) • G from (succ_nsmul G j).symm] at h
    have pre : ∀ P v, dictGet? (dictInsert t (j • G) j) P = some v →
        v • G = P ∧ v < (j + 1) + rem := by
      intro P v hpv
      by_cases hP : P = j • G
      · subst hP
        rw [dictGet?_insert_self] at hpv
        have hv : v = j := by injection hpv with h'; exact h'.symm
        subst hv
        exact ⟨rfl, by omega⟩
      · rw [dictGet?_insert_ne t _ P _ hP] at hpv
        obtain ⟨h1, h2⟩ := ht P v hpv
        exact ⟨h1, by omega⟩
    obtain ⟨h1, h2⟩ := ih (j + 1) (dictInsert t (j • G) j) pre P v h
    exact ⟨h1, by omega⟩

lemma babyTable_sound (G : Pt) (m : Nat) (P : Pt) (v : Nat)
    (h : dictGet? (babyTable G m) P = some v) : v • G = P ∧ v < m := by
  rw [babyTable, show (0 : Pt) = (0 : Nat) • G from (zero_nsmul G).symm] at h
  have pre : ∀ P v, dictGet? ([] : List (Pt × Nat)) P = some v →
      v • G = P ∧ v < 0 + m := by
    intro P v h'; rw [dictGet?_nil] at h'; cases h'
  obtain ⟨h1, h2⟩ := babyGo_sound G m 0 [] pre P v h
  exact ⟨h1, by omega⟩

lemma babyGo_mono (G : Pt) : ∀ rem (R : Pt) j t P, (dictGet? t P).isSome →
    (dictGet? (babyGo G R j rem t) P).isSome := by
  intro rem
  induction rem with
  | zero => intro R j t P h; exact h
  | succ rem ih =>
    intro R j t P h
    rw [babyGo]
    exact ih _ _ _ _ (dictGet?_insert_isSome _ _ _ _ h)

lemma babyGo_complete (G : Pt) : ∀ rem j t i, j ≤ i → i < j + rem →
    (dictGet? (babyGo G (j • G) j rem t) (i • G)).isSome := by
  intro rem
  induction rem with
  | zero => intro j t i h1 h2; omega
  | succ rem ih =>
    intro j t i h1 h2
    rw [babyGo, show (j : Nat) • G + G = (j + 1) • G from (succ_nsmul G j).symm]
    by_cases hij : i = j
    · subst hij
      apply babyGo_mono
      rw [dictGet?_insert_self]
      rfl
    · exact ih (j + 1) _ i (by omega) (by omega)

lemma babyTable_complete (G : Pt) (m i : Nat) (h : i < m) :
    (dictGet? (babyTable G m) (i • G)).isSome := by
  rw [babyTable, show (0 : Pt) = (0 : Nat) • G from (zero_nsmul G).symm]
  exact babyGo_complete G m 0 [] i (Nat.zero_le i) (by omega)

lemma babyTable_get_inj (G : Pt) (m : Nat)
    (inj : ∀ i1 i2, i1 < m → i2 < m → i1 • G = i2 • G → i1 = i2)
    (j : Nat) (hj : j < m) : dictGet? (babyTable G m) (j • G) = some j := by
  obtain ⟨v, hv⟩ := Option.isSome_iff_exists.mp (babyTable_complete G m j hj)
  obtain ⟨h1, h2⟩ := babyTable_sound G m _ v hv
  rw [hv, inj v j h2 hj h1]

lemma babyGo_len (G : Pt) : ∀ rem j t,
    (∀ i1 i2, i1 < j + rem → i2 < j + rem → i1 • G = i2 • G → i1 = i2) →
    (∀ P, (dictGet? t P).isSome ↔ ∃ i, i < j ∧ i • G = P) →
    t.length = j →
    (babyGo G (j • G) j rem t).length = j + rem := by
  intro rem
  induction rem with
  | zero => intro j t _ _ hlen; simpa [babyGo] using hlen
  | succ rem ih =>
    intro j t inj hinv hlen
    rw [babyGo, show (j : Nat) • G + G = (j + 1) • G from (succ_nsmul G j).symm]
    have hfresh : ¬(dictGet? t (j • G)).isSome := by
      intro hs
      obtain ⟨i, hi, hie⟩ := (hinv (j • G)).mp hs
      have : i = j := inj i j (by omega) (by omega) hie
      omega
    have hlen' : (dictInsert t (j • G) j).length = j + 1 := by
      rw [length_dictInsert, if_neg hfresh, hlen]
    have hinv' : ∀ P, (dictGet? (dictInsert t (j • G) j) P).isSome ↔
        ∃ i, i < j + 1 ∧ i • G = P := by
      intro P
      by_cases hP : P = j • G
      · subst hP
        constructor
        · intro _; exact ⟨j, by omega, rfl⟩
        · intro _; rw [dictGet?_insert_self]; rfl
      · rw [dictGet?_insert_ne t _ P _ hP, hinv P]
        constructor
        · rintro ⟨i, hi, hie⟩; exact ⟨i, by omega, hie⟩
        · rintro ⟨i, hi, hie⟩
          refine ⟨i, ?_, hie⟩
          rcases Nat.lt_succ_iff_lt_or_eq.mp hi with h' | h'
          · exact h'
          · subst h'; exact absurd hie.symm (Ne.symm hP ∘ Eq.symm)
    have := ih (j + 1) (dictInsert t (j • G) j)
      (fun i1 i2 h1 h2 he => inj i1 i2 (by omega) (by omega) he) hinv' hlen'
    rw [this]
    omega

lemma babyTable_len (G : Pt) (m : Nat)
    (inj : ∀ i1 i2, i1 < m → i2 < m → i1 • G = i2 • G → i1 = i2) :
    (babyTable G m).length = m := by
  rw [babyTable, show (0 : Pt) = (0 : Nat) • G from (zero_nsmul G).symm]
  have := babyGo_len G m 0 []
    (fun i1 i2 h1 h2 he => inj i1 i2 (by omega) (by omega) he)
    (by intro P; rw [dictGet?_nil]; simp)
    rfl
  rw [this]
  omega

/-! #### Giant-step phase invariants -/

lemma giantGo_sound (G : Pt) (t : List (Pt × Nat)) (m : Nat) (Q : Pt)
    (ht : ∀ P v, dictGet? t P = some v → v • G = P) :
    ∀ rem i k st, giantGo t m (m • G) (Q - i • (m • G)) i i rem = (some k, st) →
    k • G = Q := by
  intro rem
  induction rem with
  | zero => intro i k st h; simp [giantGo] at h
  | succ rem ih =>
    intro i k st h
    rw [giantGo] at h
    cases hg : dictGet? t (Q - i • (m • G)) with
    | some j =>
      rw [hg] at h
      have h' : ((some (i * m + j) : Option Nat), i + i) = (some k, st) := h
      injection congrArg Prod.fst h' with hk
      have hj := ht _ j hg
      subst hk
      calc (i * m + j) • G = (i * m) • G + j • G := add_nsmul G _ _
        _ = i • (m • G) + (Q - i • (m • G)) := by rw [hj, mul_comm i m, mul_nsmul]
        _ = Q := by abel
    | none =>
      rw [hg] at h
      rw [show Q - i • (m • G) - m • G = Q - (i + 1) • (m • G) by
        rw [sub_sub, ← succ_nsmul]] at h
      exact ih (i + 1) k st h

lemma giantGo_hit (t : List (Pt × Nat)) (m : Nat) (factor Q : Pt) :
    ∀ rem i t₀ j, i ≤ t₀ → t₀ < i + rem →
    dictGet? t (Q - t₀ • factor) = some j →
    (∀ u, i ≤ u → u < t₀ → dictGet? t (Q - u • factor) = none) →
    giantGo t m factor (Q - i • factor) i i rem = (some (t₀ * m + j), t₀ + t₀) := by
  intro rem
  induction rem with
  | zero => intro i t₀ j h1 h2 _ _; omega
  | succ rem ih =>
    intro i t₀ j h1 h2 hj hnone
    rw [giantGo]
    by_cases hit : i = t₀
    · subst hit
      rw [hj]
    · have hi : dictGet? t (Q - i • factor) = none := hnone i le_rfl (by omega)
      rw [hi]
      rw [show Q - i • factor - factor = Q - (i + 1) • factor by
        rw [sub_sub, ← succ_nsmul]]
      exact ih (i + 1) t₀ j (by omega) (by omega) hj
        (fun u hu1 hu2 => hnone u (by omega) hu2)

lemma giantGo_none (t : List (Pt × Nat)) (m : Nat) (factor Q : Pt) :
    ∀ rem i, (∀ u, i ≤ u → u < i + rem → dictGet? t (Q - u • factor) = none) →
    giantGo t m factor (Q - i • factor) i i rem = (none, i + rem) := by
  intro rem
  induction rem with
  | zero => intro i _; simp [giantGo]
  | succ rem ih =>
    intro i hnone
    rw [giantGo, hnone i le_rfl (by omega)]
    rw [show Q - i • factor - factor = Q - (i + 1) • factor by
      rw [sub_sub, ← succ_nsmul]]
    rw [ih (i + 1) (fun u hu1 hu2 => hnone u (by omega) (by omega))]
    rw [show i + 1 + rem = i + (rem + 1) from by omega]

/-! #### Brute-force loop characterization -/

lemma bruteGo_eq (G Q : Pt) : ∀ rem k,
    bruteGo G Q (k • G) k k rem =
      match (List.range' k (rem + 1)).find? (fun j => j • G = Q) with
      | some j => (some j, j)
      | none => (none, k + rem) := by
  intro rem
  induction rem with
  | zero =>
    intro k
    rw [bruteGo]
    by_cases h : k • G = Q
    · simp [List.range'_succ, h]
    · simp [List.range'_succ, h]
  | succ rem ih =>
    intro k
    rw [bruteGo]
    by_cases h : k • G = Q
    · rw [if_pos h]
      have hfind : (List.range' k (rem + 1 + 1)).find? (fun j => j • G = Q) = some k := by
        rw [List.range'_succ, List.find?_cons]
        simp [h]
      rw [hfind]
    · rw [if_neg h, show (k : Nat) • G + G = (k + 1) • G from (succ_nsmul G k).symm]
      rw [ih (k + 1)]
      conv_rhs => rw [List.range'_succ, List.find?_cons]
      have hd : (decide ((fun j => j • G = Q) k)) = false := by simp [h]
      simp only [hd, Bool.false_eq_true, if_false]
      cases hf : (List.range' (k + 1) (rem + 1)).find? (fun j => j • G = Q) with
      | some j => rfl
      | none => rw [show k + 1 + rem = k + (rem + 1) from by omega]

/-! #### Point-order loop characterization -/

lemma findOrderGo_eq (P : Pt) : ∀ rem s,
    findOrderGo P (s • P) s rem =
      match (List.range' s rem).find? (fun t => t • P = 0) with
      | some t => (some t, t)
      | none => (none, s + rem - 1) := by
  intro rem
  induction rem with
  | zero => intro s; rw [findOrderGo]; rfl
  | succ rem ih =>
    intro s
    rw [findOrderGo]
    by_cases h : s • P = 0
    · rw [if_pos h]
      have hfind : (List.range' s (rem + 1)).find? (fun t => t • P = 0) = some s := by
        rw [List.range'_succ, List.find?_cons]
        simp [h]
      rw [hfind]
    · rw [if_neg h, show (s : Nat) • P + P = (s + 1) • P from (succ_nsmul P s).symm]
      rw [ih (s + 1)]
      conv_rhs => rw [List.range'_succ, List.find?_cons]
      have hd : (decide ((fun t => t • P = 0) s)) = false := by simp [h]
      simp only [hd, Bool.false_eq_true, if_false]
      cases hf : (List.range' (s + 1) rem).find? (fun t => t • P = 0) with
      | some t => rfl
      | none => rw [show s + 1 + rem - 1 = s + (rem + 1) - 1 from by omega]

/-! #### Top-level solver plumbing -/

lemma check_field_size_ok (c : Curve) (h : bitLength c.p ≤ 64) :
    check_field_size c = .ok () := by
  unfold check_field_size
  rw [if_neg (by omega)]

lemma brute_force_dlog_eq (c : Curve) (G Q : Pt) (bound : Nat)
    (h : bitLength c.p ≤ 64) :
    brute_force_dlog c G Q bound = .ok (bruteGo G Q 0 0 0 bound) := by
  unfold brute_force_dlog
  rw [check_field_size_ok c h]

lemma bsgs_dlog_eq (c : Curve) (G Q : Pt) (bound : Nat)
    (h : bitLength c.p ≤ 64) (hb : bound ≤ 200000) :
    bsgs_dlog c G Q bound =
      .ok ⟨(giantGo (babyTable G (ceilSqrt bound)) (ceilSqrt bound)
              (ceilSqrt bound • G) Q 0 0 (ceilSqrt bound + 1)).1,
           (babyTable G (ceilSqrt bound)).length,
           (giantGo (babyTable G (ceilSqrt bound)) (ceilSqrt bound)
              (ceilSqrt bound • G) Q 0 0 (ceilSqrt bound + 1)).2⟩ := by
  unfold bsgs_dlog
  rw [check_field_size_ok c h, if_neg (by omega)]

lemma find?_range'_none (p : Nat → Bool) (s n : Nat)
    (h : ∀ u, s ≤ u → u < s + n → p u = false) :
    (List.range' s n).find? p = none := by
  rw [List.find?_eq_none]
  intro x hx
  have hm := List.mem_range'_1.mp hx
  simp [h x hm.1 hm.2]

lemma find?_range'_min (p : Nat → Bool) (s n k : Nat) (hk : s ≤ k)
    (hlt : k < s + n) (hp : p k = true)
    (hmin : ∀ u, s ≤ u → u < k → p u = false) :
    (List.range' s n).find? p = some k := by
  have hsplit : List.range' s (k - s) ++ List.range' k (n - (k - s)) =
      List.range' s n := by
    have h := List.range'_append s (k - s) (n - (k - s)) 1
    rw [show s + 1 * (k - s) = k from by omega,
        show n - (k - s) + (k - s) = n from by omega] at h
    exact h
  rw [← hsplit, List.find?_append]
  have h1 : (List.range' s (k - s)).find? p = none := by
    apply find?_range'_none
    intro u hu1 hu2
    exact hmin u hu1 (by omega)
  rw [h1]
  obtain ⟨n', hn'⟩ : ∃ n', n - (k - s) = n' + 1 := ⟨n - (k - s) - 1, by omega⟩
  rw [hn', List.range'_succ, List.find?_cons, hp]
  rfl

/-- The brute-force solver, characterized: it returns the first
`k ∈ [0, bound]` with `k·G = Q` (with `steps = k`), and `(None, bound)` when
there is none. -/
lemma brute_force_dlog_find (c : Curve) (G Q : Pt) (bound : Nat)
    (h : bitLength c.p ≤ 64) :
    brute_force_dlog c G Q bound =
      .ok (match (List.range' 0 (bound + 1)).find? (fun j => j • G = Q) with
           | some j => (some j, j)
           | none => (none, bound)) := by
  have heq := bruteGo_eq G Q bound 0
  rw [zero_nsmul] at heq
  rw [brute_force_dlog_eq c G Q bound h, heq]
  cases hf : (List.range' 0 (bound + 1)).find? (fun j => j • G = Q) with
  | some j => rfl
  | none => rw [Nat.zero_add]

section ClaimsECC

set_option maxHeartbeats 1000000

/-- C2: any input whose field prime (for the EC entry points) or modulus `n`
(for `fermat_factor`) has bit length above 64 is refused with the
field-size safety error by every entry point, before any search loop runs
(the functions reduce to the error value without taking a step). -/
theorem safety_gate_all_entry_points (c : Curve) (G Q P : Pt)
    (n maxSteps maxSearch bound os db : Nat)
    (hn : 64 < bitLength n) (hc : 64 < bitLength c.p) :
    fermat_factor n maxSteps = .error .fieldTooLarge ∧
    find_point_order c P maxSearch = (.error .fieldTooLarge : Except Err (Option Nat × Nat)) ∧
    brute_force_dlog c G Q bound = (.error .fieldTooLarge : Except Err (Option Nat × Nat)) ∧
    bsgs_dlog c G Q bound = (.error .fieldTooLarge : Except Err BsgsOut) ∧
    analyze_point c G Q os db = (.error .fieldTooLarge : Except Err Report) := by
  have hcf : check_field_size c = .error .fieldTooLarge := by
    unfold check_field_size
    rw [if_pos hc]
  refine ⟨?_, ?_, ?_, ?_, ?_⟩
  · unfold fermat_factor
    rw [if_pos hn]
  · unfold find_point_order
    rw [hcf]
  · unfold brute_force_dlog
    rw [hcf]
  · unfold bsgs_dlog
    rw [hcf]
  · unfold analyze_point
    rw [hcf]

/-- Closed witness for C2 at the 65-bit value `2^64`. -/
theorem safety_gate_all_entry_points_witness :
    fermat_factor (2 ^ 64) 5 = .error .fieldTooLarge ∧
    find_point_order ⟨2 ^ 64, 1, 1⟩ (1 : ZMod 2) 10 = .error .fieldTooLarge ∧
    brute_force_dlog ⟨2 ^ 64, 1, 1⟩ (1 : ZMod 2) 0 10 = .error .fieldTooLarge ∧
    bsgs_dlog ⟨2 ^ 64, 1, 1⟩ (1 : ZMod 2) 0 10 = .error .fieldTooLarge ∧
    analyze_point ⟨2 ^ 64, 1, 1⟩ (1 : ZMod 2) 0 10 10 = .error .fieldTooLarge := by
  have h := safety_gate_all_entry_points ⟨2 ^ 64, 1, 1⟩ (1 : ZMod 2) 0 1
    (2 ^ 64) 5 10 10 10 10 (by decide) (by decide)
  exact ⟨h.1, h.2.1, h.2.2.1, h.2.2.2.1, h.2.2.2.2⟩

/-- C9: soundness of both discrete-log solvers — whenever `brute_force_dlog`
or `bsgs_dlog` returns a number `k` (rather than `None`), `k·G = Q` holds
exactly. -/
theorem dlog_solvers_sound (c : Curve) (G Q : Pt) (bound k steps : Nat) :
    (brute_force_dlog c G Q bound = .ok (some k, steps) → k • G = Q) ∧
    (∀ out : BsgsOut, bsgs_dlog c G Q bound = .ok out → out.k = some k →
      k • G = Q) := by
  constructor
  · intro h
    have hsize : bitLength c.p ≤ 64 := by
      by_contra hlt
      rw [show brute_force_dlog c G Q bound = .error .fieldTooLarge by
        unfold brute_force_dlog check_field_size
        rw [if_pos (by omega)]] at h
      cases h
    rw [brute_force_dlog_find c G Q bound hsize] at h
    cases hf : (List.range' 0 (bound + 1)).find? (fun j => j • G = Q) with
    | some j =>
      rw [hf] at h
      have hpj := List.find?_some hf
      have hj : j • G = Q := by simpa using hpj
      have h' : ((some j : Option Nat), j) = (some k, steps) := by
        injection h with h'
      injection congrArg Prod.fst h' with hk
      rw [← hk]
      exact hj
    | none =>
      rw [hf] at h
      have h' : ((none : Option Nat), bound) = (some k, steps) := by
        injection h with h'
      have := congrArg Prod.fst h'
      simp at this
  · intro out hout hk
    have hsize : bitLength c.p ≤ 64 := by
      by_contra hlt
      rw [show bsgs_dlog c G Q bound = (.error .fieldTooLarge : Except Err BsgsOut) by
        unfold bsgs_dlog check_field_size
        rw [if_pos (by omega)]] at hout
      cases hout
    have hb : bound ≤ 200000 := by
      by_contra hgt
      rw [show bsgs_dlog c G Q bound = (.error .boundTooLarge : Except Err BsgsOut) by
        unfold bsgs_dlog
        rw [check_field_size_ok c hsize, if_pos (by omega)]] at hout
      cases hout
    rw [bsgs_dlog_eq c G Q bound hsize hb] at hout
    have hout' := (Except.ok.injEq _ _ ▸ hout)
    set m := ceilSqrt bound with hm
    set t := babyTable G m with ht
    set r := giantGo t m (m • G) Q 0 0 (m + 1) with hr
    have hout2 : (⟨r.1, t.length, r.2⟩ : BsgsOut) = out := by
      injection hout with h'
    have hrk : r.1 = some k := by
      rw [← hout2] at hk
      exact hk
    have hgiant : giantGo t m (m • G) (Q - 0 • (m • G)) 0 0 (m + 1) = (some k, r.2) := by
      rw [show Q - (0 : Nat) • (m • G) = Q by rw [zero_nsmul, sub_zero], ← hr]
      rw [show r = (r.1, r.2) from rfl, hrk]
    exact giantGo_sound G t m Q
      (fun P v h => (babyTable_sound G m P v h).1) (m + 1) 0 k r.2 hgiant

/-- Closed witness for C9: the brute-force return `7` on `ZMod 13` and the
BSGS return `2` on `ZMod 2` are both exact discrete logs. -/
theorem dlog_solvers_sound_witness :
    (7 : Nat) • (1 : ZMod 13) = (7 : ZMod 13) ∧
    (2 : Nat) • (1 : ZMod 2) = (0 : ZMod 2) := by
  constructor
  · exact (dlog_solvers_sound ⟨5, 1, 1⟩ (1 : ZMod 13) 7 13 7 7).1 (by decide)
  · exact (dlog_solvers_sound ⟨5, 1, 1⟩ (1 : ZMod 2) 0 9 2 0).2
      ⟨some 2, 2, 0⟩ (by decide) (by decide)

/-- C7: when the exact order of a non-identity point `P` equals the search
bound, `find_point_order` finds it (the upper bound is inclusive); when the
order is one more than the search bound, the search reports `None` with
`max_search` steps. -/
theorem find_point_order_boundary (c : Curve) (P : Pt) (ord : Nat)
    (hsize : bitLength c.p ≤ 64) (hP : P ≠ 0) (h1 : 1 ≤ ord)
    (horder : ord • P = 0) (hmin : ∀ k, 1 ≤ k → k < ord → k • P ≠ 0) :
    find_point_order c P ord = .ok (some ord, ord) ∧
    find_point_order c P (ord - 1) = .ok (none, ord - 1) := by
  have hfp : ∀ ms : Nat, find_point_order c P ms = .ok (findOrderGo P P 1 ms) := by
    intro ms
    unfold find_point_order
    rw [check_field_size_ok c hsize]
    rw [if_neg hP]
  have hstart : ∀ ms : Nat, findOrderGo P P 1 ms =
      match (List.range' 1 ms).find? (fun t => t • P = 0) with
      | some t => (some t, t)
      | none => (none, 1 + ms - 1) := by
    intro ms
    have := findOrderGo_eq P ms 1
    rw [one_nsmul] at this
    exact this
  constructor
  · rw [hfp ord, hstart ord]
    have hfind : (List.range' 1 ord).find? (fun t => t • P = 0) = some ord := by
      apply find?_range'_min _ _ _ _ h1 (by omega) (by simp [horder])
      intro u hu1 hu2
      simp [hmin u hu1 hu2]
    rw [hfind]
  · rw [hfp (ord - 1), hstart (ord - 1)]
    have hfind : (List.range' 1 (ord - 1)).find? (fun t => t • P = 0) = none := by
      apply find?_range'_none
      intro u hu1 hu2
      simp [hmin u hu1 (by omega)]
    rw [hfind]
    have : 1 + (ord - 1) - 1 = ord - 1 := by omega
    rw [this]

/-- Closed witness for C7 on `ZMod 5` with the point `1` of order 5. -/
theorem find_point_order_boundary_witness :
    find_point_order ⟨5, 1, 1⟩ (1 : ZMod 5) 5 = .ok (some 5, 5) ∧
    find_point_order ⟨5, 1, 1⟩ (1 : ZMod 5) 4 = .ok (none, 4) := by
  have h := find_point_order_boundary ⟨5, 1, 1⟩ (1 : ZMod 5) 5
    (by decide) (by decide) (by decide) (by decide)
    (by decide)
  exact ⟨h.1, h.2⟩

/-- Minimal-hit extraction: if `f` is somewhere `some`, there is a first
index where it is. -/
lemma exists_first_hit (f : Nat → Option Nat) (i₀ : Nat) (h : (f i₀).isSome) :
    ∃ t j, f t = some j ∧ t ≤ i₀ ∧ ∀ u, u < t → f u = none := by
  have hex : ∃ u, (f u).isSome = true := ⟨i₀, h⟩
  have hfind := Nat.find_spec hex
  refine ⟨Nat.find hex, (f (Nat.find hex)).get hfind,
    (Option.some_get hfind).symm, Nat.find_le h, ?_⟩
  intro u hu
  have hnot := Nat.find_min hex hu
  exact Option.not_isSome_iff_eq_none.mp (by simpa using hnot)

/-- C1 (amended): when a solution `k₀ < bound` exists (and the call passes
the safety gates), both solvers succeed: brute force returns the least
solution `k₀`, and BSGS returns some exact solution; if moreover the baby
multiples `j·G`, `j < ceil(sqrt bound)`, are pairwise distinct (e.g. the
order of `G` is at least `ceil(sqrt bound)`), BSGS returns the same `k₀`.
Without the distinctness proviso the two returned logs can differ (see the
counterexample). -/
theorem dlog_solvers_agreement (c : Curve) (G Q : Pt) (bound k₀ : Nat)
    (hsize : bitLength c.p ≤ 64) (hbound : bound ≤ 200000)
    (hk : k₀ • G = Q) (hklt : k₀ < bound)
    (hmin : ∀ j, j < k₀ → j • G ≠ Q) :
    brute_force_dlog c G Q bound = .ok (some k₀, k₀) ∧
    (∃ out : BsgsOut, bsgs_dlog c G Q bound = .ok out ∧
      ∃ k, out.k = some k ∧ k • G = Q) ∧
    ((∀ i1 i2, i1 < ceilSqrt bound → i2 < ceilSqrt bound →
        i1 • G = i2 • G → i1 = i2) →
      ∃ st, bsgs_dlog c G Q bound = .ok ⟨some k₀, ceilSqrt bound, st⟩) := by
  set m := ceilSqrt bound with hmdef
  have hm1 : 1 ≤ m := ceilSqrt_pos bound (by omega)
  have hmm : bound ≤ m * m := le_ceilSqrt_sq bound
  have hj₀ : k₀ % m < m := Nat.mod_lt _ (by omega)
  have hi₀ : k₀ / m < m := (Nat.div_lt_iff_lt_mul (by omega)).mpr (by omega)
  have hdecomp : Q - (k₀ / m) • (m • G) = (k₀ % m) • G := by
    have hsplitk : k₀ • G = (k₀ / m) • (m • G) + (k₀ % m) • G := by
      conv_lhs => rw [show k₀ = m * (k₀ / m) + k₀ % m from (Nat.div_add_mod k₀ m).symm]
      rw [add_nsmul, mul_nsmul]
    rw [← hk, hsplitk, add_sub_cancel_left]
  have hhit : (dictGet? (babyTable G m) (Q - (k₀ / m) • (m • G))).isSome := by
    rw [hdecomp]
    exact babyTable_complete G m (k₀ % m) hj₀
  obtain ⟨t₀, j, hfj₀, ht₀le, hfirst₀⟩ :=
    exists_first_hit (fun u => dictGet? (babyTable G m) (Q - u • (m • G))) (k₀ / m) hhit
  have hfj : dictGet? (babyTable G m) (Q - t₀ • (m • G)) = some j := hfj₀
  have hfirst : ∀ u, u < t₀ → dictGet? (babyTable G m) (Q - u • (m • G)) = none :=
    fun u hu => hfirst₀ u hu
  obtain ⟨hjG, hjm⟩ := babyTable_sound G m _ j hfj
  have hkval : (t₀ * m + j) • G = Q := by
    calc (t₀ * m + j) • G = (t₀ * m) • G + j • G := add_nsmul G _ _
      _ = t₀ • (m • G) + (Q - t₀ • (m • G)) := by rw [hjG, mul_comm t₀ m, mul_nsmul]
      _ = Q := by abel
  have hgiant : giantGo (babyTable G m) m (m • G) Q 0 0 (m + 1) =
      (some (t₀ * m + j), t₀ + t₀) := by
    have h := giantGo_hit (babyTable G m) m (m • G) Q (m + 1) 0 t₀ j
      (Nat.zero_le t₀) (by omega) hfj (fun u _ hu => hfirst u hu)
    rw [show Q - (0 : Nat) • (m • G) = Q by rw [zero_nsmul, sub_zero]] at h
    exact h
  have hbsgs : bsgs_dlog c G Q bound =
      .ok ⟨some (t₀ * m + j), (babyTable G m).length, t₀ + t₀⟩ := by
    rw [bsgs_dlog_eq c G Q bound hsize hbound, ← hmdef, hgiant]
  refine ⟨?_, ?_, ?_⟩
  · rw [brute_force_dlog_find c G Q bound hsize]
    have hfind : (List.range' 0 (bound + 1)).find? (fun j => j • G = Q) = some k₀ := by
      apply find?_range'_min _ _ _ _ (Nat.zero_le k₀) (by omega) (by simp [hk])
      intro u _ hu
      simp [hmin u hu]
    rw [hfind]
  · exact ⟨_, hbsgs, t₀ * m + j, rfl, hkval⟩
  · intro inj
    have hlen : (babyTable G m).length = m := babyTable_len G m inj
    have hge : k₀ ≤ t₀ * m + j := by
      by_contra hlt
      exact hmin _ (by omega) hkval
    have ht₀ : t₀ = k₀ / m := by
      rcases Nat.lt_or_ge t₀ (k₀ / m) with hlt | hge'
      · exfalso
        have h1 : t₀ * m + j < (t₀ + 1) * m := by
          rw [Nat.succ_mul]
          omega
        have h2 : (t₀ + 1) * m ≤ (k₀ / m) * m :=
          Nat.mul_le_mul_right m (by omega)
        have h3 : (k₀ / m) * m ≤ k₀ := Nat.div_mul_le_self k₀ m
        omega
      · omega
    have hjj : j = k₀ % m := by
      rw [ht₀, hdecomp] at hfj
      have := babyTable_get_inj G m inj (k₀ % m) hj₀
      rw [this] at hfj
      injection hfj with h'
      exact h'.symm
    have hksame : t₀ * m + j = k₀ := by
      rw [ht₀, hjj, mul_comm]
      exact Nat.div_add_mod k₀ m
    exact ⟨t₀ + t₀, by rw [hbsgs, hksame, hlen]⟩

/-- Natural numbers below 13 are separated by their scalar action on
`1 : ZMod 13`. -/
lemma zmod13_smul_inj (i1 i2 : Nat) (h1 : i1 < 13) (h2 : i2 < 13)
    (h : i1 • (1 : ZMod 13) = i2 • (1 : ZMod 13)) : i1 = i2 := by
  have hc : (i1 : ZMod 13) = (i2 : ZMod 13) := by
    simpa [nsmul_eq_mul] using h
  have hm := (ZMod.natCast_eq_natCast_iff i1 i2 13).mp hc
  have hm' : i1 % 13 = i2 % 13 := hm
  rw [Nat.mod_eq_of_lt h1, Nat.mod_eq_of_lt h2] at hm'
  exact hm'

/-- Counterexample to C1 as stated: on a group element of order 2 with
`Q` the identity and `bound = 9`, a solution `k = 0 < 9` exists and both
solvers succeed, but brute force returns 0 while BSGS returns 2 — the two
do not return the same value. -/
theorem dlog_solvers_agreement_cex :
    (0 : Nat) • (1 : ZMod 2) = (0 : ZMod 2) ∧ (0 : Nat) < 9 ∧
    brute_force_dlog ⟨5, 1, 1⟩ (1 : ZMod 2) (0 : ZMod 2) 9 = .ok (some 0, 0) ∧
    bsgs_dlog ⟨5, 1, 1⟩ (1 : ZMod 2) (0 : ZMod 2) 9 = .ok ⟨some 2, 2, 0⟩ ∧
    (2 : Nat) ≠ 0 := by
  refine ⟨by decide, by decide, by decide, by decide, by decide⟩

/-- Closed witness for C1's amended theorem on `ZMod 13` (`G = 1`, `Q = 7`,
`bound = 13`): both solvers return the same `k = 7`. -/
theorem dlog_solvers_agreement_witness :
    brute_force_dlog ⟨5, 1, 1⟩ (1 : ZMod 13) (7 : ZMod 13) 13 = .ok (some 7, 7) ∧
    bsgs_dlog ⟨5, 1, 1⟩ (1 : ZMod 13) (7 : ZMod 13) 13 = .ok ⟨some 7, 4, 2⟩ := by
  have h := dlog_solvers_agreement ⟨5, 1, 1⟩ (1 : ZMod 13) (7 : ZMod 13) 13 7
    (by decide) (by decide) (by decide) (by decide) (by decide)
  exact ⟨h.1, by decide⟩

/-- C4 (amended): provided the baby multiples `j·G`, `j < ceil(sqrt bound)`,
are pairwise distinct, the reported baby-step table size equals
`ceil(sqrt bound)` exactly.  When multiples collide the Python `dict`
deduplicates keys and the reported size is smaller (see the
counterexample). -/
theorem bsgs_table_size (c : Curve) (G Q : Pt) (bound : Nat)
    (hsize : bitLength c.p ≤ 64) (hbound : bound ≤ 200000)
    (inj : ∀ i1 i2, i1 < ceilSqrt bound → i2 < ceilSqrt bound →
      i1 • G = i2 • G → i1 = i2) :
    ∃ out : BsgsOut, bsgs_dlog c G Q bound = .ok out ∧
      out.memory = ceilSqrt bound := by
  rw [bsgs_dlog_eq c G Q bound hsize hbound]
  exact ⟨_, rfl, babyTable_len G (ceilSqrt bound) inj⟩

/-- Counterexample to C4 as stated: with a group element of order 2 and
`bound = 9` (within the safety ceiling), the reported table size is 2,
not `ceil(sqrt 9) = 3` — the three baby points `0·G, 1·G, 2·G` collide on
two distinct keys. -/
theorem bsgs_table_size_cex :
    bsgs_dlog ⟨5, 1, 1⟩ (1 : ZMod 2) (0 : ZMod 2) 9 = .ok ⟨some 2, 2, 0⟩ ∧
    ceilSqrt 9 = 3 ∧ (2 : Nat) ≠ 3 := by
  refine ⟨by decide, by decide, by decide⟩

/-- Closed witness for C4's amended theorem on `ZMod 13`, `bound = 13`:
the table size is `ceil(sqrt 13) = 4`. -/
theorem bsgs_table_size_witness :
    bsgs_dlog ⟨5, 1, 1⟩ (1 : ZMod 13) (7 : ZMod 13) 13 = .ok ⟨some 7, 4, 2⟩ ∧
    ceilSqrt 13 = 4 := by
  have hinj : ∀ i1 i2, i1 < ceilSqrt 13 → i2 < ceilSqrt 13 →
      i1 • (1 : ZMod 13) = i2 • (1 : ZMod 13) → i1 = i2 := by
    intro i1 i2 h1 h2 hE
    have hc : ceilSqrt 13 = 4 := by decide
    rw [hc] at h1 h2
    exact zmod13_smul_inj i1 i2 (by omega) (by omega) hE
  obtain ⟨out, hout, hmem⟩ := bsgs_table_size ⟨5, 1, 1⟩ (1 : ZMod 13) (7 : ZMod 13) 13
    (by decide) (by decide) hinj
  exact ⟨by decide, by decide⟩

end ClaimsECC

/-! #### Fermat factorization lemmas -/

lemma fermatGo_none (n : Nat) : ∀ rem a steps,
    (∀ s, s < rem → fermatHit n (a + s) = false) →
    fermatGo n a steps rem = none := by
  intro rem
  induction rem with
  | zero => intro a steps _; rfl
  | succ rem ih =>
    intro a steps hmiss
    have h0 := hmiss 0 (by omega)
    rw [Nat.add_zero] at h0
    simp only [fermatHit] at h0
    simp only [fermatGo]
    by_cases hsq : is_square (a * a - n) = true
    · rw [if_pos hsq]
      have hne : ((a - isqrt (a * a - n)) * (a + isqrt (a * a - n)) == n) = false := by
        rw [hsq] at h0
        simpa using h0
      have hne' : ¬((a - isqrt (a * a - n)) * (a + isqrt (a * a - n)) = n) := by
        simpa using hne
      rw [if_neg hne']
      exact ih (a + 1) (steps + 1) (fun s hs => by
        have := hmiss (s + 1) (by omega)
        rwa [show a + (s + 1) = a + 1 + s from by omega] at this)
    · rw [if_neg hsq]
      exact ih (a + 1) (steps + 1) (fun s hs => by
        have := hmiss (s + 1) (by omega)
        rwa [show a + (s + 1) = a + 1 + s from by omega] at this)

section ClaimsFermat

/-- C5 (amended): when `fermat_factor` exhausts `max_steps` without a hit it
returns the bare Python `None` — a failure value carrying no step count and
no elapsed time (`return None` in the source), not a diagnostic-carrying
NotFound record. -/
theorem fermat_factor_exhaust (n maxSteps : Nat) (hbit : bitLength n ≤ 64)
    (hmiss : ∀ s, s < maxSteps → fermatHit n (fermatStart n + s) = false) :
    fermat_factor n maxSteps = .ok none := by
  unfold fermat_factor
  rw [if_neg (by omega)]
  rw [fermatGo_none n maxSteps (fermatStart n) 0 hmiss]

/-- Counterexample to C5 as stated: `fermat_factor(33, 1)` exhausts its
single step and returns the bare `None` (no steps-attempted count, no
elapsed time), contradicting the claim that a diagnostic-carrying NotFound
result is produced. -/
theorem fermat_factor_exhaust_cex : fermat_factor 33 1 = .ok none := by decide

/-- Closed witness for C5's amended theorem at `n = 33`, `max_steps = 1`. -/
theorem fermat_factor_exhaust_witness : fermat_factor 33 1 = .ok none ∧ 33 = 3 * 11 :=
  ⟨fermat_factor_exhaust 33 1 (by decide) (by decide), by decide⟩

/-- C10: on a perfect square `n` (within the bit ceiling) with at least one
step allowed, `fermat_factor` succeeds immediately with `steps = 0` and
returns the equal factors `p = q = isqrt n`, even though RSA key material
assumes `p ≠ q`. -/
theorem fermat_factor_perfect_square (n maxSteps : Nat)
    (hsq : isqrt n * isqrt n = n) (hbit : bitLength n ≤ 64) (hms : 1 ≤ maxSteps) :
    fermat_factor n maxSteps = .ok (some (isqrt n, isqrt n, 0)) := by
  unfold fermat_factor
  rw [if_neg (by omega)]
  obtain ⟨r, hr⟩ : ∃ r, maxSteps = r + 1 := ⟨maxSteps - 1, by omega⟩
  subst hr
  have hstart : fermatStart n = isqrt n := by
    unfold fermatStart
    rw [if_neg (by omega)]
  rw [hstart]
  simp only [fermatGo]
  have hb2 : isqrt n * isqrt n - n = 0 := by omega
  rw [hb2]
  rw [if_pos (by decide : is_square 0 = true)]
  rw [show isqrt 0 = 0 from rfl]
  rw [if_pos (by simpa using hsq)]
  simp

/-- Closed witness for C10 at the perfect square `n = 49`. -/
theorem fermat_factor_perfect_square_witness :
    fermat_factor 49 1 = .ok (some (7, 7, 0)) := by
  have h := fermat_factor_perfect_square 49 1 (by decide) (by decide) (by decide)
  rwa [show isqrt 49 = 7 from by decide] at h

end ClaimsFermat

/-! #### Extended-Euclid and modular-inverse lemmas -/

lemma egcdGo_spec : ∀ f a b, b ≤ f →
    (egcdGo f a b).1 * (a : Int) + (egcdGo f a b).2.1 * (b : Int) = (egcdGo f a b).2.2 ∧
    (egcdGo f a b).2.2 = (Nat.gcd a b : Int) := by
  intro f
  induction f with
  | zero =>
    intro a b hb
    have hb0 : b = 0 := by omega
    subst hb0
    simp [egcdGo]
  | succ f ih =>
    intro a b hb
    by_cases h0 : b = 0
    · subst h0
      simp [egcdGo]
    · simp only [egcdGo, if_neg h0]
      obtain ⟨ih1, ih2⟩ := ih b (a % b)
        (by have := Nat.mod_lt a (Nat.pos_of_ne_zero h0); omega)
      constructor
      · have hmod : ((a % b : Nat) : Int) = (a : Int) - ((a / b : Nat) : Int) * (b : Int) := by
          have h := Nat.mod_add_div a b
          have h' : ((a % b : Nat) : Int) + (b : Int) * ((a / b : Nat) : Int) = (a : Int) := by
            exact_mod_cast congrArg (Nat.cast : Nat → Int) h
          linarith
        rw [hmod] at ih1
        linear_combination ih1
      · rw [ih2]
        congr 1
        rw [Nat.gcd_comm b (a % b), ← Nat.gcd_rec b a, Nat.gcd_comm b a]

lemma egcd_spec (a b : Nat) :
    (egcd a b).1 * (a : Int) + (egcd a b).2.1 * (b : Int) = (egcd a b).2.2 ∧
    (egcd a b).2.2 = (Nat.gcd a b : Int) :=
  egcdGo_spec b a b le_rfl

/-- The value `((egcd e φ).x mod φ).toNat` computed by the source's inline
EGCD (and by `_inv_mod`) is a modular inverse of `e` whenever
`gcd e φ = 1`. -/
lemma egcd_inverse (e phi : Nat) (hg : Nat.gcd e phi = 1) (hphi : 0 < phi) :
    (e * ((egcd e phi).1 % (phi : Int)).toNat) % phi = 1 % phi := by
  obtain ⟨hbez, hgcd⟩ := egcd_spec e phi
  set x := (egcd e phi).1 with hx
  set y := (egcd e phi).2.1 with hy
  have h1 : x * (e : Int) + y * (phi : Int) = 1 := by
    rw [hbez, hgcd, hg]
    norm_num
  have hnn : (0 : Int) ≤ x % (phi : Int) :=
    Int.emod_nonneg x (by exact_mod_cast hphi.ne')
  have hdInt : (((x % (phi : Int)).toNat : Nat) : Int) = x % (phi : Int) :=
    Int.toNat_of_nonneg hnn
  have hI : ((e * (x % (phi : Int)).toNat : Nat) : Int) % (phi : Int) =
      ((1 : Nat) : Int) % (phi : Int) := by
    push_cast
    rw [hdInt]
    calc ((e : Int) * (x % (phi : Int))) % (phi : Int)
        = ((e : Int) * x) % (phi : Int) := by
          conv_lhs => rw [Int.mul_emod]
          conv_rhs => rw [Int.mul_emod]
          rw [Int.emod_emod_of_dvd x dvd_rfl]
      _ = 1 % (phi : Int) := by
          have hex : (e : Int) * x = 1 - y * (phi : Int) := by linarith [h1]
          rw [hex, show (1 : Int) - y * (phi : Int) = 1 + (-y) * (phi : Int) by ring,
            Int.add_mul_emod_self]
  exact_mod_cast hI

/-! #### Prime-generator lemmas -/

/-- Candidates drawn by `gen_prime` are odd and pass the Fermat test. -/
lemma genPrimeGo_accept (rand : Nat → Nat) (bits : Nat) : ∀ fuel idx p i',
    genPrimeGo rand bits fuel idx = some (p, i') →
    2 ^ (p - 1) % p = 1 ∧ p % 2 = 1 := by
  intro fuel
  induction fuel with
  | zero => intro idx p i' h; cases h
  | succ fuel ih =>
    intro idx p i' h
    simp only [genPrimeGo] at h
    by_cases ht : 2 ^ ((rand idx % 2 ^ bits ||| 1) - 1) % (rand idx % 2 ^ bits ||| 1) = 1
    · rw [if_pos ht] at h
      have hp : rand idx % 2 ^ bits ||| 1 = p := by
        injection h with h'
        exact congrArg Prod.fst h'
      refine ⟨by rw [← hp]; exact ht, ?_⟩
      rw [← hp]
      simp [Nat.or_mod_two_eq_one]
    · rw [if_neg ht] at h
      exact ih (idx + 1) p i' h

/-- An odd value passing `pow(2, p-1, p) == 1` is at least 2 (so at least
3). -/
lemma fermat_test_two_le (p : Nat) (hodd : p % 2 = 1)
    (ht : 2 ^ (p - 1) % p = 1) : 2 ≤ p := by
  match p, hodd with
  | 1, _ => simp at ht
  | (n + 2), _ => omega

/-- The keys built by the `gen_weak_rsa` delta scan are internally
consistent. -/
lemma weakScan_sound (p : Nat) (hp : 2 ≤ p) : ∀ rem delta k,
    weakScan p rem delta = .ok k →
    k.p * k.q = k.n ∧
    k.e * k.d % ((k.p - 1) * (k.q - 1)) = 1 % ((k.p - 1) * (k.q - 1)) := by
  intro rem
  induction rem with
  | zero => intro delta k h; cases h
  | succ rem ih =>
    intro delta k h
    simp only [weakScan] at h
    by_cases hcond : 2 ^ (p + delta - 1) % (p + delta) = 1 ∧ Nat.gcd p (p + delta) = 1
    · rw [if_pos hcond] at h
      by_cases hgcd : Nat.gcd 65537 ((p - 1) * (p + delta - 1)) = 1
      · rw [if_pos hgcd] at h
        injection h with hk
        subst hk
        refine ⟨rfl, ?_⟩
        exact egcd_inverse 65537 ((p - 1) * (p + delta - 1)) hgcd
          (Nat.mul_pos (by omega) (by omega))
      · rw [if_neg hgcd] at h
        exact ih (delta + 1) k h
    · rw [if_neg hcond] at h
      exact ih (delta + 1) k h

lemma ipp64_two_le (n : Nat) (h : is_probable_prime_64 n = true) : 2 ≤ n := by
  by_contra h2
  unfold is_probable_prime_64 at h
  rw [if_pos (by omega)] at h
  cases h

lemma genPrimeMrGo_accept (rand : Nat → Nat) (bits : Nat) : ∀ fuel idx p i',
    genPrimeMrGo rand bits fuel idx = some (p, i') →
    is_probable_prime_64 p = true ∧ p = rand_odd_with_bits rand bits (i' - 1) := by
  intro fuel
  induction fuel with
  | zero => intro idx p i' h; cases h
  | succ fuel ih =>
    intro idx p i' h
    simp only [genPrimeMrGo] at h
    by_cases ht : is_probable_prime_64 (rand_odd_with_bits rand bits idx) = true
    · rw [if_pos ht] at h
      injection h with h'
      have hp : rand_odd_with_bits rand bits idx = p := congrArg Prod.fst h'
      have hi : idx + 1 = i' := congrArg Prod.snd h'
      constructor
      · rw [← hp]; exact ht
      · rw [← hp, ← hi]
        norm_num
    · rw [if_neg ht] at h
      exact ih (idx + 1) p i' h

/-- Python `_rand_odd_with_bits` always produces a value of exactly the requested
bit length (the top bit is forced, and the value stays below `2^bits`). -/
lemma rand_odd_with_bits_size (rand : Nat → Nat) (bits idx : Nat) (hb : 1 ≤ bits) :
    bitLength (rand_odd_with_bits rand bits idx) = bits := by
  set v := rand_odd_with_bits rand bits idx with hv
  have hup : v < 2 ^ bits := by
    rw [hv]
    unfold rand_odd_with_bits
    apply Nat.or_lt_two_pow
    · apply Nat.or_lt_two_pow
      · exact Nat.mod_lt _ (Nat.pos_pow_of_pos bits (by norm_num))
      · exact Nat.pow_lt_pow_right (by norm_num) (by omega)
    · exact Nat.one_lt_two_pow (by omega)
  have htb : v.testBit (bits - 1) = true := by
    rw [hv]
    unfold rand_odd_with_bits
    rw [Nat.testBit_lor, Nat.testBit_lor, Nat.testBit_two_pow_self]
    simp
  have hlo : 2 ^ (bits - 1) ≤ v := by
    by_contra hcon
    push_neg at hcon
    have := Nat.testBit_lt_two_pow hcon
    rw [htb] at this
    cases this
  have := bitLength_eq v (bits - 1) hlo
    (by rw [show bits - 1 + 1 = bits from by omega]; exact hup)
  rw [this]
  omega

/-- Python `weak_rsa_gen.gen_strong_rsa`'s retry loop yields internally consistent
keys. -/
lemma inv_mod_ok (a m : Nat) (h : Nat.gcd a m = 1) :
    inv_mod a m = .ok (((egcd a m).1 % (m : Int)).toNat) := by
  unfold inv_mod
  rw [if_pos h]

lemma genStrongGoW_sound (rand : Nat → Nat) (bits minGap e pf : Nat) :
    ∀ tries idx k,
    WeakRsaGen.genStrongGo rand bits minGap e pf tries idx = some (.ok k) →
    k.p * k.q = k.n ∧
    k.e * k.d % ((k.p - 1) * (k.q - 1)) = 1 % ((k.p - 1) * (k.q - 1)) := by
  intro tries
  induction tries with
  | zero =>
    intro idx k h
    have h' := Option.some.inj h
    cases h'
  | succ tries ih =>
    intro idx k h
    simp only [WeakRsaGen.genStrongGo] at h
    cases hp : genPrimeMrGo rand bits pf idx with
    | none => simp only [hp] at h; cases h
    | some pr =>
      obtain ⟨p, i1⟩ := pr
      simp only [hp] at h
      cases hq : genPrimeMrGo rand bits pf i1 with
      | none => simp only [hq] at h; cases h
      | some qr =>
        obtain ⟨q, i2⟩ := qr
        simp only [hq] at h
        by_cases hpq : p = q
        · rw [if_pos hpq] at h; exact ih i2 k h
        · rw [if_neg hpq] at h
          by_cases hgap : ((p : Int) - (q : Int)).natAbs < minGap
          · rw [if_pos hgap] at h; exact ih i2 k h
          · rw [if_neg hgap] at h
            by_cases hg : Nat.gcd e (p - 1) ≠ 1 ∨ Nat.gcd e (q - 1) ≠ 1 ∨
                Nat.gcd e ((p - 1) * (q - 1)) ≠ 1
            · rw [if_pos hg] at h; exact ih i2 k h
            · rw [if_neg hg] at h
              push_neg at hg
              obtain ⟨_, _, hephi⟩ := hg
              have hp2 : 2 ≤ p :=
                ipp64_two_le p (genPrimeMrGo_accept rand bits pf idx p i1 hp).1
              have hq2 : 2 ≤ q :=
                ipp64_two_le q (genPrimeMrGo_accept rand bits pf i1 q i2 hq).1
              rw [inv_mod_ok e ((p - 1) * (q - 1)) hephi] at h
              have hk := Except.ok.inj (Option.some.inj h)
              subst hk
              exact ⟨rfl, egcd_inverse e ((p - 1) * (q - 1)) hephi
                (Nat.mul_pos (by omega) (by omega))⟩

lemma miller_rabin_two_le (rand : Nat → Nat) (n rounds idx : Nat)
    (h : (StrongRsaGen.miller_rabin rand n rounds idx).1 = true) : 2 ≤ n := by
  by_contra h2
  unfold StrongRsaGen.miller_rabin at h
  rw [if_pos (by omega)] at h
  cases h

lemma genPrimeGoS_two_le (rand : Nat → Nat) (bits rounds : Nat) : ∀ fuel idx p i',
    StrongRsaGen.genPrimeGo rand bits rounds fuel idx = some (p, i') → 2 ≤ p := by
  intro fuel
  induction fuel with
  | zero => intro idx p i' h; cases h
  | succ fuel ih =>
    intro idx p i' h
    simp only [StrongRsaGen.genPrimeGo] at h
    by_cases hv : (StrongRsaGen.miller_rabin rand
        (StrongRsaGen.rand_odd_bits rand bits idx) rounds (idx + 1)).1 = true
    · rw [if_pos hv] at h
      have hp : StrongRsaGen.rand_odd_bits rand bits idx = p := by
        injection h with h'
        exact congrArg Prod.fst h'
      rw [← hp]
      exact miller_rabin_two_le rand _ rounds (idx + 1) hv
    · rw [if_neg hv] at h
      exact ih _ p i' h

lemma genSafePrimeGoS_two_le (rand : Nat → Nat) (bits rounds pf : Nat) :
    ∀ fuel idx p i',
    StrongRsaGen.genSafePrimeGo rand bits rounds pf fuel idx = some (p, i') →
    2 ≤ p := by
  intro fuel
  induction fuel with
  | zero => intro idx p i' h; cases h
  | succ fuel ih =>
    intro idx p i' h
    simp only [StrongRsaGen.genSafePrimeGo] at h
    cases hr : StrongRsaGen.genPrimeGo rand (bits - 1) rounds pf idx with
    | none => simp only [hr] at h; cases h
    | some rr =>
      obtain ⟨r, i1⟩ := rr
      simp only [hr] at h
      by_cases hbl : bitLength (2 * r + 1) ≠ bits
      · rw [if_pos hbl] at h
        exact ih i1 p i' h
      · rw [if_neg hbl] at h
        by_cases hv : (StrongRsaGen.miller_rabin rand (2 * r + 1) rounds i1).1 = true
        · rw [if_pos hv] at h
          have hp : 2 * r + 1 = p := by
            injection h with h'
            exact congrArg Prod.fst h'
          rw [← hp]
          exact miller_rabin_two_le rand _ rounds i1 hv
        · rw [if_neg hv] at h
          exact ih _ p i' h

lemma drawS_two_le (rand : Nat → Nat) (half rounds pf : Nat) (sp : Bool)
    (idx p i' : Nat)
    (h : (if sp then StrongRsaGen.genSafePrimeGo rand half rounds pf pf idx
          else StrongRsaGen.genPrimeGo rand half rounds pf idx) = some (p, i')) :
    2 ≤ p := by
  cases sp with
  | false =>
    rw [if_neg (by simp)] at h
    exact genPrimeGoS_two_le rand half rounds pf idx p i' h
  | true =>
    rw [if_pos rfl] at h
    exact genSafePrimeGoS_two_le rand half rounds pf pf idx p i' h

lemma genStrongGoS_sound (rand : Nat → Nat) (half e : Nat) (sp : Bool)
    (mgb : Option Nat) (rounds pf : Nat) : ∀ fuel idx k,
    StrongRsaGen.genStrongGo rand half e sp mgb rounds pf fuel idx = some (.ok k) →
    k.p * k.q = k.n ∧
    k.e * k.d % ((k.p - 1) * (k.q - 1)) = 1 % ((k.p - 1) * (k.q - 1)) := by
  intro fuel
  induction fuel with
  | zero => intro idx k h; cases h
  | succ fuel ih =>
    intro idx k h
    simp only [StrongRsaGen.genStrongGo] at h
    cases hp : (if sp then StrongRsaGen.genSafePrimeGo rand half rounds pf pf idx
        else StrongRsaGen.genPrimeGo rand half rounds pf idx) with
    | none => simp only [hp] at h; cases h
    | some pr =>
      obtain ⟨p, i1⟩ := pr
      simp only [hp] at h
      cases hq : (if sp then StrongRsaGen.genSafePrimeGo rand half rounds pf pf i1
          else StrongRsaGen.genPrimeGo rand half rounds pf i1) with
      | none => simp only [hq] at h; cases h
      | some qr =>
        obtain ⟨q, i2⟩ := qr
        simp only [hq] at h
        by_cases hpq : p = q
        · rw [if_pos hpq] at h; exact ih i2 k h
        · rw [if_neg hpq] at h
          by_cases hgap : mgb.isSome ∧
              bitLength ((p : Int) - (q : Int)).natAbs < mgb.getD 0
          · rw [if_pos hgap] at h; exact ih i2 k h
          · rw [if_neg hgap] at h
            by_cases hg1 : Nat.gcd e (p - 1) ≠ 1 ∨ Nat.gcd e (q - 1) ≠ 1
            · rw [if_pos hg1] at h; exact ih i2 k h
            · rw [if_neg hg1] at h
              by_cases hg2 : Nat.gcd e ((p - 1) * (q - 1)) ≠ 1
              · rw [if_pos hg2] at h; exact ih i2 k h
              · rw [if_neg hg2] at h
                push_neg at hg2
                have hp2 : 2 ≤ p := drawS_two_le rand half rounds pf sp idx p i1 hp
                have hq2 : 2 ≤ q := drawS_two_le rand half rounds pf sp i1 q i2 hq
                simp only [inv_mod_ok e ((p - 1) * (q - 1)) hg2] at h
                cases hqi : inv_mod q p with
                | error er =>
                  simp only [hqi] at h
                  have := Option.some.inj h
                  cases this
                | ok qv =>
                  simp only [hqi] at h
                  have hk := Except.ok.inj (Option.some.inj h)
                  subst hk
                  exact ⟨rfl, egcd_inverse e ((p - 1) * (q - 1)) hg2
                    (Nat.mul_pos (by omega) (by omega))⟩

section ClaimsRSA

/-- C3: every key dict returned normally by `gen_weak_rsa`,
`weak_rsa_gen.gen_strong_rsa` or `strong_rsa_gen.gen_strong_rsa` satisfies
`p·q = n` exactly and `e·d ≡ 1 (mod (p−1)(q−1))`. -/
theorem rsa_key_consistency :
    (∀ (rand : Nat → Nat) (bits closeness fuel idx : Nat) (k : RSAKey),
      gen_weak_rsa rand bits closeness fuel idx = some (.ok k) →
      k.p * k.q = k.n ∧ k.e * k.d ≡ 1 [MOD (k.p - 1) * (k.q - 1)]) ∧
    (∀ (rand : Nat → Nat) (bits minGap e maxTries pf idx : Nat) (k : RSAKey),
      WeakRsaGen.gen_strong_rsa rand bits minGap e maxTries pf idx = some (.ok k) →
      k.p * k.q = k.n ∧ k.e * k.d ≡ 1 [MOD (k.p - 1) * (k.q - 1)]) ∧
    (∀ (rand : Nat → Nat) (mbits e : Nat) (sp : Bool) (mgb : Option Nat)
        (rounds fuel pf idx : Nat) (k : StrongRsaGen.StrongKey),
      StrongRsaGen.gen_strong_rsa rand mbits e sp mgb rounds fuel pf idx = some (.ok k) →
      k.p * k.q = k.n ∧ k.e * k.d ≡ 1 [MOD (k.p - 1) * (k.q - 1)]) := by
  refine ⟨?_, ?_, ?_⟩
  · intro rand bits closeness fuel idx k h
    unfold gen_weak_rsa at h
    by_cases hbits : bits < 8
    · simp only [gen_prime, if_pos hbits] at h
      have := Option.some.inj h
      cases this
    · simp only [gen_prime, if_neg hbits] at h
      cases hg : genPrimeGo rand bits fuel idx with
      | none => simp only [hg] at h; cases h
      | some pr =>
        obtain ⟨p, i'⟩ := pr
        simp only [hg] at h
        have hscan := Option.some.inj h
        obtain ⟨hferm, hodd⟩ := genPrimeGo_accept rand bits fuel idx p i' hg
        have hp2 : 2 ≤ p := fermat_test_two_le p hodd hferm
        obtain ⟨h1, h2⟩ := weakScan_sound p hp2 closeness 1 k hscan
        exact ⟨h1, h2⟩
  · intro rand bits minGap e maxTries pf idx k h
    unfold WeakRsaGen.gen_strong_rsa at h
    by_cases hbits : ¬(8 ≤ bits ∧ bits ≤ 64)
    · rw [if_pos hbits] at h
      have := Option.some.inj h
      cases this
    · rw [if_neg hbits] at h
      by_cases hgap : minGap < 1
      · rw [if_pos hgap] at h
        have := Option.some.inj h
        cases this
      · rw [if_neg hgap] at h
        obtain ⟨h1, h2⟩ := genStrongGoW_sound rand bits minGap e pf maxTries idx k h
        exact ⟨h1, h2⟩
  · intro rand mbits e sp mgb rounds fuel pf idx k h
    unfold StrongRsaGen.gen_strong_rsa at h
    by_cases hodd : mbits % 2 ≠ 0
    · rw [if_pos hodd] at h
      have := Option.some.inj h
      cases this
    · rw [if_neg hodd] at h
      obtain ⟨h1, h2⟩ :=
        genStrongGoS_sound rand (mbits / 2) e sp mgb rounds pf fuel idx k h
      exact ⟨h1, h2⟩

/-- Closed witness for C3: each of the three synthesizers, run on a
concrete random stream, yields a key satisfying both invariants. -/
theorem rsa_key_consistency_witness :
    (191 * 193 = 36863 ∧ 65537 * 19073 ≡ 1 [MOD 190 * 192]) ∧
    (131 * 139 = 18209 ∧ 65537 * 15233 ≡ 1 [MOD 130 * 138]) ∧
    (131 * 139 = 18209 ∧ 65537 * 15233 ≡ 1 [MOD 130 * 138]) := by
  refine ⟨?_, ?_, ?_⟩
  · exact rsa_key_consistency.1 (fun _ => 191) 8 2 1 0
      ⟨191, 193, 36863, 65537, 19073⟩ (by decide)
  · exact rsa_key_consistency.2.1 (fun i => if i % 2 = 0 then 131 else 139)
      8 1 65537 5 2 0 ⟨131, 139, 18209, 65537, 15233⟩ (by decide)
  · exact rsa_key_consistency.2.2 (fun i => if i % 2 = 0 then 131 else 139)
      16 65537 false none 64 5 2 0
      ⟨131, 139, 18209, 65537, 15233, 17940, 23, 53, 82, false⟩ (by decide)

/-- C6 (amended): both prime generators sample odd candidates, but only
`gen_prime_mr` (via `_rand_odd_with_bits`) forces the top bit: its primes
always have exactly the requested bit length.  `gen_prime` only ors in the
low bit, so it can return primes of smaller bit length (see the
counterexample). -/
theorem prime_generator_bits :
    (∀ (rand : Nat → Nat) (bits fuel idx p i' : Nat),
      gen_prime_mr rand bits fuel idx = .ok (some (p, i')) → bitLength p = bits) ∧
    (∀ (rand : Nat → Nat) (bits fuel idx p i' : Nat),
      gen_prime rand bits fuel idx = .ok (some (p, i')) → p % 2 = 1) := by
  constructor
  · intro rand bits fuel idx p i' h
    unfold gen_prime_mr at h
    by_cases hb : 8 ≤ bits ∧ bits ≤ 64
    · rw [if_pos hb] at h
      have hgo := Except.ok.inj h
      obtain ⟨_, hform⟩ := genPrimeMrGo_accept rand bits fuel idx p i' hgo
      rw [hform]
      exact rand_odd_with_bits_size rand bits (i' - 1) (by omega)
    · rw [if_neg hb] at h
      cases h
  · intro rand bits fuel idx p i' h
    unfold gen_prime at h
    by_cases hb : bits < 8
    · rw [if_pos hb] at h
      cases h
    · rw [if_neg hb] at h
      exact (genPrimeGo_accept rand bits fuel idx p i' (Except.ok.inj h)).2

/-- Counterexample to C6 as stated: `gen_prime` (one of the claim's two
source functions) does not force the top bit — with a random draw of 5 it
returns the prime 5, of bit length 3 rather than the requested 8. -/
theorem prime_generator_bits_cex :
    gen_prime (fun _ => 5) 8 1 0 = .ok (some (5, 1)) ∧
    bitLength 5 = 3 ∧ (3 : Nat) ≠ 8 := by
  refine ⟨by decide, by decide, by decide⟩

/-- Closed witness for C6's amended theorem: `gen_prime_mr` returns 131 at
`bits = 8`, and 131 indeed has bit length exactly 8; `gen_prime`'s
return 5 is odd. -/
theorem prime_generator_bits_witness : bitLength 131 = 8 ∧ 5 % 2 = 1 := by
  constructor
  · exact prime_generator_bits.1 (fun _ => 131) 8 1 0 131 1 (by decide)
  · exact prime_generator_bits.2 (fun _ => 5) 8 1 0 5 1 (by decide)

/-! #### Try-cap lemmas for the two strong generators -/

/-- On the constant stream 127 every candidate of the strong-file
`_gen_prime` is 255 = 3·5·17, which trial division rejects, so the
generator searches forever (returns `none` for every fuel). -/
lemma strongS_genPrime_none_127 : ∀ pf idx,
    StrongRsaGen.genPrimeGo (fun _ => 127) 8 64 pf idx = none := by
  intro pf
  induction pf with
  | zero => intro idx; rfl
  | succ pf ih =>
    intro idx
    have hc : StrongRsaGen.rand_odd_bits (fun _ => 127) 8 idx = 255 := by
      simp [StrongRsaGen.rand_odd_bits]
    have hmr : StrongRsaGen.miller_rabin (fun _ => 127) 255 64 (idx + 1) =
        (false, idx + 1) := by
      simp [StrongRsaGen.miller_rabin,
        show StrongRsaGen.trial_division 255 = false from by decide]
    simp [StrongRsaGen.genPrimeGo, hc, hmr, ih]

/-- The strong-file `gen_strong_rsa` retry loop never exits on the constant
stream 127: no amount of fuel produces a result — there is no try cap. -/
lemma strongS_gen_none_127 : ∀ fuel pf idx,
    StrongRsaGen.genStrongGo (fun _ => 127) 8 65537 false none 64 pf fuel idx =
      none := by
  intro fuel
  induction fuel with
  | zero => intro pf idx; rfl
  | succ fuel ih =>
    intro pf idx
    simp [StrongRsaGen.genStrongGo, strongS_genPrime_none_127]

/-- On the constant stream 131, `gen_prime_mr` immediately returns the
prime 131 (for any positive fuel). -/
lemma genPrimeMr_131 : ∀ pf idx,
    genPrimeMrGo (fun _ => 131) 8 (pf + 1) idx = some (131, idx + 1) := by
  intro pf idx
  simp only [genPrimeMrGo]
  have hc : rand_odd_with_bits (fun _ => 131) 8 idx = 131 := by
    simp [rand_odd_with_bits]
  rw [hc, if_pos (by decide : is_probable_prime_64 131 = true)]

/-- A try of the weak-file retry loop that draws the same prime twice
rejects the pair (`p == q`) and moves on to the next try. -/
lemma genStrongGoW_step_pq (rand : Nat → Nat) (bits minGap e pf tries idx i1 i2 p : Nat)
    (hp : genPrimeMrGo rand bits pf idx = some (p, i1))
    (hq : genPrimeMrGo rand bits pf i1 = some (p, i2)) :
    WeakRsaGen.genStrongGo rand bits minGap e pf (tries + 1) idx =
      WeakRsaGen.genStrongGo rand bits minGap e pf tries i2 := by
  simp only [WeakRsaGen.genStrongGo]
  simp only [hp, hq]
  rw [if_pos trivial]

/-- On the constant stream 131 the weak-file strong generator draws
`p = q = 131` on every try, so the try counter runs out and the loop
raises the budget-exhausted `RuntimeError` — for every `max_tries`. -/
lemma strongW_budget_131 : ∀ tries pf idx,
    WeakRsaGen.genStrongGo (fun _ => 131) 8 1 65537 (pf + 1) tries idx =
      some (.error .budgetExhausted) := by
  intro tries
  induction tries with
  | zero => intro pf idx; rfl
  | succ tries ih =>
    intro pf idx
    rw [genStrongGoW_step_pq (fun _ => 131) 8 1 65537 (pf + 1) tries idx
      (idx + 1) (idx + 2) 131 (genPrimeMr_131 pf idx) (genPrimeMr_131 pf (idx + 1))]
    exact ih pf (idx + 2)

/-- C8 (amended): the weak-file `gen_strong_rsa` is capped at `max_tries`
attempts and fails with the budget-exhausted `RuntimeError` once the cap is
exceeded (here: a sampler that always returns the same prime exhausts every
cap); the strong-file `gen_strong_rsa` has no try cap at all — on a sampler
whose candidates are always composite its `while True` loop never
produces any result, for any amount of fuel. -/
theorem gen_strong_rsa_try_cap :
    (∀ maxTries pf idx : Nat,
      WeakRsaGen.gen_strong_rsa (fun _ => 131) 8 1 65537 maxTries (pf + 1) idx =
        some (.error .budgetExhausted)) ∧
    (∀ fuel pf idx : Nat,
      StrongRsaGen.gen_strong_rsa (fun _ => 127) 16 65537 false none 64 fuel pf idx =
        none) := by
  constructor
  · intro maxTries pf idx
    unfold WeakRsaGen.gen_strong_rsa
    rw [if_neg (by norm_num), if_neg (by norm_num)]
    exact strongW_budget_131 maxTries pf idx
  · intro fuel pf idx
    unfold StrongRsaGen.gen_strong_rsa
    rw [if_neg (by norm_num)]
    exact strongS_gen_none_127 fuel pf idx

/-- Counterexample to C8 as stated: the strong-file `gen_strong_rsa` has no
try cap — there is no bound `cap` such that every call with at least `cap`
loop iterations available settles (returns a key or raises
`BudgetExhausted`): the constant-127 sampler defeats every candidate
cap. -/
theorem gen_strong_rsa_try_cap_cex :
    ¬ ∃ cap : Nat, ∀ (rand : Nat → Nat) (fuel pf idx : Nat), cap ≤ fuel →
      StrongRsaGen.gen_strong_rsa rand 16 65537 false none 64 fuel pf idx ≠
        none := by
  rintro ⟨cap, hcap⟩
  apply hcap (fun _ => 127) cap 1 0 le_rfl
  unfold StrongRsaGen.gen_strong_rsa
  rw [if_neg (by norm_num)]
  exact strongS_gen_none_127 cap 1 0

end ClaimsRSA

